import Mathlib

/-!
Shallow embedding of the Input Action Binding and Dispatch Engine of this
repository (file src/core/services/InputService.ts), together with proofs
about its behaviour.

Modelling choices, fixed once for the whole file:
* a JavaScript Map is an insertion-ordered association list
  (List (key × value)); Map.get is the first entry with the key,
  Map.set replaces the first entry in place or appends a fresh one;
* a JavaScript Set is an insertion-ordered duplicate-free list;
* every number the service ever stores is -1, 0 or 1, so axis values
  are Int;
* a thrown exception is an Except String result, threaded exactly where
  the source would let an exception propagate; consumer callbacks are
  identified by natural numbers and their behaviour is an external
  parameter mapping the identifier and the call arguments to
  Except String Unit;
* the localStorage collaborator is a state field holding the last list
  of bindings that saveBindings serialized, or none; the JSON round
  trip of a binding record is the identity on the modelled fields
  (JSON.stringify drops an undefined secondary and JSON.parse yields an
  absent one, which the Option type reflects directly), so a faithful
  storage is built into the model.
-/

/-- Map.get of a JavaScript Map modelled as an association list:
the value of the first entry whose key matches. -/
def aget {α β : Type} [DecidableEq α] : List (α × β) → α → Option β
  | [], _ => none
  | (k0, v0) :: rest, k => if k0 = k then some v0 else aget rest k

/-- Map.set of a JavaScript Map: replace the value of the first entry
with this key in place, or append a fresh entry. -/
def aset {α β : Type} [DecidableEq α] : List (α × β) → α → β → List (α × β)
  | [], k, v => [(k, v)]
  | (k0, v0) :: rest, k, v =>
      if k0 = k then (k, v) :: rest else (k0, v0) :: aset rest k v

/-- Lookup with a default value. -/
def agetD {α β : Type} [DecidableEq α] (m : List (α × β)) (k : α) (d : β) : β :=
  (aget m k).getD d

/-- Map.has of a JavaScript Map. -/
def hasKey {α β : Type} [DecidableEq α] (m : List (α × β)) (k : α) : Bool :=
  (aget m k).isSome

/-- Set.add of a JavaScript Set: append when absent. -/
def sadd {α : Type} [DecidableEq α] (s : List α) (a : α) : List α :=
  if a ∈ s then s else s ++ [a]

section MapLemmas

variable {α β : Type} [DecidableEq α]

theorem aget_aset_self (m : List (α × β)) (k : α) (v : β) :
    aget (aset m k v) k = some v := by
  induction m with
  | nil => simp [aget, aset]
  | cons p rest ih =>
      obtain ⟨k0, v0⟩ := p
      by_cases h : k0 = k
      · simp [aget, aset, h]
      · simp [aget, aset, h, ih]

theorem aget_aset_ne (m : List (α × β)) (k k' : α) (v : β) (h : k' ≠ k) :
    aget (aset m k v) k' = aget m k' := by
  have h2 : ¬ k = k' := fun he => h he.symm
  induction m with
  | nil => simp [aget, aset, h2]
  | cons p rest ih =>
      obtain ⟨k0, v0⟩ := p
      by_cases h0 : k0 = k
      · subst h0
        simp [aget, aset, h2]
      · simp [aget, aset, h0, ih]

theorem mem_of_aget {m : List (α × β)} {k : α} {v : β}
    (h : aget m k = some v) : (k, v) ∈ m := by
  induction m with
  | nil => simp [aget] at h
  | cons p rest ih =>
      obtain ⟨k0, v0⟩ := p
      by_cases h0 : k0 = k
      · subst h0
        simp [aget] at h
        subst h
        exact List.mem_cons_self _ _
      · simp [aget, h0] at h
        exact List.mem_cons_of_mem _ (ih h)

theorem aget_of_mem_nodup {m : List (α × β)} {k : α} {v : β}
    (hnd : (m.map Prod.fst).Nodup) (h : (k, v) ∈ m) : aget m k = some v := by
  induction m with
  | nil => simp at h
  | cons p rest ih =>
      obtain ⟨k0, v0⟩ := p
      simp only [List.map_cons, List.nodup_cons] at hnd
      rcases List.mem_cons.mp h with h1 | h1
      · obtain ⟨hk, hv⟩ := Prod.mk.injEq .. ▸ h1.symm
        simp [aget, hk.symm, hv]
      · have hne : k0 ≠ k := by
          intro he
          exact hnd.1 (he ▸ (List.mem_map.mpr ⟨(k, v), h1, rfl⟩))
        simp [aget, hne, ih hnd.2 h1]

theorem mem_aset {m : List (α × β)} {k : α} {v : β} {p : α × β}
    (h : p ∈ aset m k v) : p = (k, v) ∨ p ∈ m := by
  induction m with
  | nil => simpa [aset] using h
  | cons q rest ih =>
      obtain ⟨k0, v0⟩ := q
      by_cases h0 : k0 = k
      · subst h0
        simp only [aset, if_pos rfl] at h
        rcases List.mem_cons.mp h with h1 | h1
        · exact Or.inl h1
        · exact Or.inr (List.mem_cons_of_mem _ h1)
      · simp only [aset, if_neg h0] at h
        rcases List.mem_cons.mp h with h1 | h1
        · exact Or.inr (h1 ▸ List.mem_cons_self _ _)
        · rcases ih h1 with h2 | h2
          · exact Or.inl h2
          · exact Or.inr (List.mem_cons_of_mem _ h2)

theorem keys_aset_of_mem {m : List (α × β)} {k : α} (v : β)
    (h : hasKey m k = true) : (aset m k v).map Prod.fst = m.map Prod.fst := by
  induction m with
  | nil => simp [hasKey, aget] at h
  | cons p rest ih =>
      obtain ⟨k0, v0⟩ := p
      by_cases h0 : k0 = k
      · subst h0
        simp [aset]
      · simp only [hasKey, aget, if_neg h0] at h
        simp [aset, h0, ih h]

theorem hasKey_iff {m : List (α × β)} {k : α} :
    hasKey m k = true ↔ k ∈ m.map Prod.fst := by
  induction m with
  | nil => simp [hasKey, aget]
  | cons p rest ih =>
      obtain ⟨k0, v0⟩ := p
      by_cases h0 : k0 = k
      · subst h0
        simp [hasKey, aget]
      · have h1 : ¬ k = k0 := fun he => h0 he.symm
        simp only [hasKey, aget, if_neg h0, List.map_cons, List.mem_cons]
        rw [← hasKey]
        simp [ih, h1]

theorem aget_eq_none_of_not_hasKey {m : List (α × β)} {k : α}
    (h : hasKey m k = false) : aget m k = none := by
  unfold hasKey at h
  cases hg : aget m k with
  | none => rfl
  | some v => rw [hg] at h; simp at h

theorem hasKey_aset_of {m : List (α × β)} {k k' : α} {v : β}
    (h : hasKey m k' = true) : hasKey (aset m k v) k' = true := by
  by_cases he : k' = k
  · subst he
    simp [hasKey, aget_aset_self]
  · simpa [hasKey, aget_aset_ne m k k' v he] using h

end MapLemmas

/-- The InputActionType enumeration of the source. -/
inductive InputActionType where
  | MOVE_FORWARD | MOVE_BACKWARD | MOVE_LEFT | MOVE_RIGHT
  | JUMP | SPRINT | CROUCH
  | ATTACK_PRIMARY | ATTACK_SECONDARY | RELOAD | AIM
  | USE_ABILITY_1 | USE_ABILITY_2 | USE_ABILITY_3
  | INTERACT | USE_ITEM | PICK_UP | DROP
  | MENU_TOGGLE | INVENTORY_TOGGLE | MAP_TOGGLE | QUEST_LOG_TOGGLE | PAUSE
  | ENTER_EXIT_VEHICLE | VEHICLE_ACCELERATE | VEHICLE_BRAKE
  | VEHICLE_TURN_LEFT | VEHICLE_TURN_RIGHT
  | CAMERA_LOOK | CAMERA_ZOOM
  | GRAPPLE | RELEASE_GRAPPLE
deriving DecidableEq, Repr

/-- The InputContext enumeration of the source. -/
inductive InputContext where
  | PLAYER | VEHICLE | UI | MENU | DIALOG | CUTSCENE
deriving DecidableEq, Repr

/-- The InputState enumeration of the source. -/
inductive InputState where
  | PRESSED | RELEASED | HELD
deriving DecidableEq, Repr

/-- The IInputBinding record of the source; an absent secondary control is
Option.none. -/
structure IInputBinding where
  action : InputActionType
  primary : String
  secondary : Option String
  context : InputContext
  description : String
  rebindable : Bool
deriving DecidableEq, Repr

/-- Payload passed to a handler: a number for movement actions, a 2D
vector for the camera look action, absent otherwise. -/
inductive HValue where
  | num (n : Int)
  | vec (x y : Int)
deriving DecidableEq, Repr

/-- One performed handler invocation, recorded by the dispatch model:
which action fired, which handler was called, with which state and
payload. -/
structure Invoc where
  action : InputActionType
  hid : Nat
  st : InputState
  value : Option HValue
deriving DecidableEq, Repr

/-- External behaviour of the registered consumer callbacks: an
invocation either returns normally or throws. -/
def HB : Type := Nat → InputState → Option HValue → Except String Unit

/-- The handler behaviour never throws. -/
def HOk (hb : HB) : Prop := ∀ i st v, hb i st v = Except.ok ()

/-- The mutable fields of the InputService class, plus the storage
collaborator. -/
structure EngineState where
  actionHandlers : List (InputActionType × List Nat)
  bindings : List (InputActionType × IInputBinding)
  activeContexts : List InputContext
  keyStates : List (String × Bool)
  actionStates : List (InputActionType × InputState)
  axisValues : List (InputActionType × Int)
  storage : Option (List IInputBinding)
deriving DecidableEq, Repr

open InputActionType InputContext InputState

/-- The toLowerCase normalization applied by the source to raw keys and
rebind tokens, written over the character list so that it computes by
kernel reduction (it agrees with the library lower-casing of strings).
-/
def strLower (s : String) : String := ⟨s.data.map Char.toLower⟩

/-- The defaultBindings array of the source, transcribed entry for
entry in order. -/
def defaultBindings : List IInputBinding := [
  ⟨MOVE_FORWARD, "w", some "arrowup", PLAYER, "Move Forward", true⟩,
  ⟨MOVE_BACKWARD, "s", some "arrowdown", PLAYER, "Move Backward", true⟩,
  ⟨MOVE_LEFT, "a", some "arrowleft", PLAYER, "Move Left", true⟩,
  ⟨MOVE_RIGHT, "d", some "arrowright", PLAYER, "Move Right", true⟩,
  ⟨JUMP, " ", none, PLAYER, "Jump", true⟩,
  ⟨SPRINT, "shift", none, PLAYER, "Sprint", true⟩,
  ⟨CROUCH, "control", none, PLAYER, "Crouch", true⟩,
  ⟨ATTACK_PRIMARY, "mouse0", none, PLAYER, "Attack (Primary)", true⟩,
  ⟨ATTACK_SECONDARY, "mouse1", none, PLAYER, "Attack (Secondary)", true⟩,
  ⟨RELOAD, "r", none, PLAYER, "Reload", true⟩,
  ⟨AIM, "mouse1", none, PLAYER, "Aim", true⟩,
  ⟨USE_ABILITY_1, "q", none, PLAYER, "Use Ability 1", true⟩,
  ⟨USE_ABILITY_2, "e", none, PLAYER, "Use Ability 2", true⟩,
  ⟨USE_ABILITY_3, "f", none, PLAYER, "Use Ability 3", true⟩,
  ⟨INTERACT, "e", none, PLAYER, "Interact", true⟩,
  ⟨USE_ITEM, "f", none, PLAYER, "Use Item", true⟩,
  ⟨MENU_TOGGLE, "escape", none, PLAYER, "Toggle Menu", false⟩,
  ⟨INVENTORY_TOGGLE, "i", none, PLAYER, "Toggle Inventory", true⟩,
  ⟨MAP_TOGGLE, "m", none, PLAYER, "Toggle Map", true⟩,
  ⟨GRAPPLE, "mouse1", none, PLAYER, "Grapple", true⟩,
  ⟨RELEASE_GRAPPLE, " ", none, PLAYER, "Release Grapple", true⟩]

/-- The binding table produced by resetBindings: Map.set of every
default binding, keyed by its action, starting from a cleared map. -/
def defaultAssoc : List (InputActionType × IInputBinding) :=
  defaultBindings.foldl (fun m b => aset m b.action b) []

/-- registerActionHandler: create the per-action Set on demand and add
the handler (Set.add appends when absent). -/
def registerActionHandler (s : EngineState) (a : InputActionType) (hid : Nat) :
    EngineState :=
  let cur := agetD s.actionHandlers a []
  { s with actionHandlers := aset s.actionHandlers a (sadd cur hid) }

/-- The deregistration closure returned by registerActionHandler:
delete the handler from the per-action Set when that Set exists. -/
def unregisterActionHandler (s : EngineState) (a : InputActionType) (hid : Nat) :
    EngineState :=
  match aget s.actionHandlers a with
  | none => s
  | some hs => { s with actionHandlers := aset s.actionHandlers a (hs.erase hid) }

/-- enableContext: Set.add on the active context set. -/
def enableContext (s : EngineState) (c : InputContext) : EngineState :=
  { s with activeContexts := sadd s.activeContexts c }

/-- disableContext: Set.delete on the active context set. -/
def disableContext (s : EngineState) (c : InputContext) : EngineState :=
  { s with activeContexts := s.activeContexts.erase c }

/-- isContextEnabled. -/
def isContextEnabled (s : EngineState) (c : InputContext) : Bool :=
  c ∈ s.activeContexts

/-- getBinding: lookup, null when absent. -/
def getBinding (s : EngineState) (a : InputActionType) : Option IInputBinding :=
  aget s.bindings a

/-- The guard of rebindAction in the source:
false when the action has no binding or the binding is not rebindable. -/
def canRebind (s : EngineState) (a : InputActionType) : Bool :=
  match aget s.bindings a with
  | none => false
  | some b => b.rebindable

/-- The secondary control committed by rebindAction: the source tests
the argument for truthiness, so an absent argument and an empty string
both clear the secondary, and any other string is lower-cased. -/
def rebindSecondary (sec : Option String) : Option String :=
  match sec with
  | none => none
  | some t => if t = "" then none else some (strLower t)

/-- rebindAction: returns the updated state and the boolean result of
the source method. -/
def rebindAction (s : EngineState) (a : InputActionType) (p : String)
    (sec : Option String) : EngineState × Bool :=
  match aget s.bindings a with
  | none => (s, false)
  | some b =>
      if b.rebindable then
        let b2 : IInputBinding :=
          { b with primary := (strLower p), secondary := rebindSecondary sec }
        ({ s with bindings := aset s.bindings a b2 }, true)
      else (s, false)

/-- resetBindings: clear the table and set every default binding. -/
def resetBindings (s : EngineState) : EngineState :=
  { s with bindings := defaultAssoc }

/-- saveBindings: serialize Array.from of the binding values under the
fixed storage key; the storage collaborator is modelled as faithful. -/
def saveBindings (s : EngineState) : EngineState :=
  { s with storage := some (s.bindings.map Prod.snd) }

/-- The import loop of loadBindings: for each saved binding whose
action already has an entry, overwrite that entry wholesale. -/
def loadFold : List IInputBinding →
    List (InputActionType × IInputBinding) → List (InputActionType × IInputBinding)
  | [], m => m
  | b :: rest, m =>
      loadFold rest (if hasKey m b.action then aset m b.action b else m)

/-- loadBindings: a missing key leaves the bindings untouched. -/
def loadBindings (s : EngineState) : EngineState :=
  match s.storage with
  | none => s
  | some data => { s with bindings := loadFold data s.bindings }

/-- getAxisValue: the stored value, with 0 for an absent entry (the
source returns the stored number or-else 0, identical on integers). -/
def getAxisValue (s : EngineState) (a : InputActionType) : Int :=
  agetD s.axisValues a 0

/-- getVector2Value: two independent axis reads. -/
def getVector2Value (s : EngineState) (h v : InputActionType) : Int × Int :=
  (getAxisValue s h, getAxisValue s v)

/-- isActionInState: strict equality with the stored discrete state. -/
def isActionInState (s : EngineState) (a : InputActionType) (st : InputState) :
    Bool :=
  decide (aget s.actionStates a = some st)

/-- Run the handler Set of one action in insertion order, exactly as the
notification loop of the source: each invocation is recorded; a thrown
exception stops the loop at once and is returned (the source has no
try or catch around a handler call). -/
def runHandlers (hb : HB) (a : InputActionType) (st : InputState)
    (v : Option HValue) : List Nat → List Invoc × Option String
  | [] => ([], none)
  | h :: rest =>
      match hb h st v with
      | Except.error e => ([⟨a, h, st, v⟩], some e)
      | Except.ok _ =>
          let r := runHandlers hb a st v rest
          (⟨a, h, st, v⟩ :: r.1, r.2)

/-- The payload computed by notifyActionHandlers: the current axis value
for the four movement actions, a stub 2D vector for camera look, absent
otherwise. -/
def valueFor (s : EngineState) (a : InputActionType) : Option HValue :=
  if a = MOVE_FORWARD ∨ a = MOVE_BACKWARD ∨ a = MOVE_LEFT ∨ a = MOVE_RIGHT then
    some (HValue.num (getAxisValue s a))
  else if a = CAMERA_LOOK then
    some (HValue.vec (getAxisValue s CAMERA_LOOK) 0)
  else none

/-- notifyActionHandlers: nothing happens when the action has no handler
Set; otherwise the payload is computed and every handler is invoked in
order until one throws. -/
def notifyActionHandlers (hb : HB) (s : EngineState) (a : InputActionType)
    (st : InputState) : List Invoc × Option String :=
  match aget s.actionHandlers a with
  | none => ([], none)
  | some hs => runHandlers hb a st (valueFor s a) hs

/-- The new discrete state committed for a raw transition. -/
def newStateFor (pressed : Bool) : InputState :=
  if pressed then InputState.PRESSED else InputState.RELEASED

/-- Commit a new discrete state for an action. -/
def dispatchCommit (s : EngineState) (a : InputActionType) (ns : InputState) :
    EngineState :=
  { s with actionStates := aset s.actionStates a ns }

/-- The loop body of processInputChange over the remaining binding
entries: skip entries whose context is not active, and for each entry
whose primary or secondary control equals the key, commit the new
discrete state and notify the handlers; an exception thrown by a
handler aborts the rest of the loop and is returned, with the
mutations performed so far kept. -/
def picGo (hb : HB) (key : String) (pressed : Bool) :
    List (InputActionType × IInputBinding) → EngineState →
    EngineState × List Invoc × Option String
  | [], s => (s, [], none)
  | (a, b) :: rest, s =>
      if b.context ∈ s.activeContexts then
        if b.primary = key ∨ b.secondary = some key then
          let s1 := dispatchCommit s a (newStateFor pressed)
          let r1 := notifyActionHandlers hb s1 a (newStateFor pressed)
          match r1.2 with
          | some e => (s1, r1.1, some e)
          | none =>
              let r2 := picGo hb key pressed rest s1
              (r2.1, r1.1 ++ r2.2.1, r2.2.2)
        else picGo hb key pressed rest s
      else picGo hb key pressed rest s

/-- processInputChange, with the list of performed handler invocations
and the exception, if one escaped, made explicit. -/
def processInputChangeL (hb : HB) (s : EngineState) (key : String)
    (pressed : Bool) : EngineState × List Invoc × Option String :=
  picGo hb key pressed s.bindings s

/-- isKeyForActionPressed: the bound primary control is pressed, or a
truthy (present and non-empty) secondary control is pressed. -/
def isKeyForActionPressed (s : EngineState) (a : InputActionType) : Bool :=
  match aget s.bindings a with
  | none => false
  | some b =>
      agetD s.keyStates b.primary false ||
        match b.secondary with
        | none => false
        | some sec => decide (sec ≠ "") && agetD s.keyStates sec false

/-- The axis sample computed by updateAxisValues for one opposing pair:
the running value starts at 0, gains 1 when the positive side of the
pair reports a pressed bound control and loses 1 when the negative side
does. -/
def axisFromKeys (s : EngineState) (pos neg : InputActionType) : Int :=
  (if isKeyForActionPressed s pos then 1 else 0) -
    (if isKeyForActionPressed s neg then 1 else 0)

/-- updateAxisValues: the horizontal axis is stored under MOVE_RIGHT and
the vertical axis under MOVE_FORWARD, recomputed from the raw key
states of both directions. -/
def updateAxisValues (s : EngineState) : EngineState :=
  { s with axisValues :=
      (aset (aset s.axisValues MOVE_RIGHT (axisFromKeys s MOVE_RIGHT MOVE_LEFT))
        MOVE_FORWARD (axisFromKeys s MOVE_FORWARD MOVE_BACKWARD)) }

/-- Record a raw control transition and run the dispatch for it. -/
def keyDispatch (hb : HB) (s : EngineState) (key : String) (pressed : Bool) :
    EngineState × List Invoc × Option String :=
  processInputChangeL hb { s with keyStates := aset s.keyStates key pressed }
    key pressed

/-- handleKeyDown: lower-case the key, ignore a repeat of an already
pressed key, record the press, dispatch, and, when no exception escaped
the dispatch, recompute the axis values. -/
def handleKeyDownL (hb : HB) (s : EngineState) (rawKey : String) :
    EngineState × List Invoc × Option String :=
  if agetD s.keyStates (strLower rawKey) false then (s, [], none)
  else
    match (keyDispatch hb s (strLower rawKey) true).2.2 with
    | some e =>
        ((keyDispatch hb s (strLower rawKey) true).1,
         (keyDispatch hb s (strLower rawKey) true).2.1, some e)
    | none =>
        (updateAxisValues (keyDispatch hb s (strLower rawKey) true).1,
         (keyDispatch hb s (strLower rawKey) true).2.1, none)

/-- handleKeyUp: record the release, dispatch, and, when no exception
escaped the dispatch, recompute the axis values. -/
def handleKeyUpL (hb : HB) (s : EngineState) (rawKey : String) :
    EngineState × List Invoc × Option String :=
  match (keyDispatch hb s (strLower rawKey) false).2.2 with
  | some e =>
      ((keyDispatch hb s (strLower rawKey) false).1,
       (keyDispatch hb s (strLower rawKey) false).2.1, some e)
  | none =>
      (updateAxisValues (keyDispatch hb s (strLower rawKey) false).1,
       (keyDispatch hb s (strLower rawKey) false).2.1, none)

/-- handleMouseDown: the synthetic token mouseN, no axis recomputation. -/
def handleMouseDownL (hb : HB) (s : EngineState) (button : Nat) :
    EngineState × List Invoc × Option String :=
  keyDispatch hb s ("mouse" ++ toString button) true

/-- handleMouseUp: the synthetic token mouseN, no axis recomputation. -/
def handleMouseUpL (hb : HB) (s : EngineState) (button : Nat) :
    EngineState × List Invoc × Option String :=
  keyDispatch hb s ("mouse" ++ toString button) false

/-- handleMouseMove: the placeholder of the source, which stores 0 under
the camera look action. -/
def handleMouseMove (s : EngineState) : EngineState :=
  { s with axisValues := aset s.axisValues CAMERA_LOOK 0 }

/-- One release performed by the handleWindowBlur loop: mark the
control released, then dispatch it like an organic key-up. -/
def blurStep (hb : HB) (s : EngineState) (k : String) :
    EngineState × List Invoc × Option String :=
  processInputChangeL hb { s with keyStates := aset s.keyStates k false } k false

/-- The loop of handleWindowBlur over the tracked raw controls: every
pressed control is set released and dispatched as an organic key-up;
an exception thrown by a handler aborts the loop. -/
def blurGo (hb : HB) : List (String × Bool) → EngineState →
    EngineState × List Invoc × Option String
  | [], s => (s, [], none)
  | (k, pressed) :: rest, s =>
      if pressed then
        let r1 := blurStep hb s k
        match r1.2.2 with
        | some e => (r1.1, r1.2.1, some e)
        | none =>
            let r2 := blurGo hb rest r1.1
            (r2.1, r1.2.1 ++ r2.2.1, r2.2.2)
      else blurGo hb rest s

/-- handleWindowBlur: release every pressed control with a full
dispatch each, then set every tracked axis value to 0; when a handler
exception escapes the release loop, the axis reset is never reached. -/
def handleWindowBlurL (hb : HB) (s : EngineState) :
    EngineState × List Invoc × Option String :=
  match (blurGo hb s.keyStates s).2.2 with
  | some e =>
      ((blurGo hb s.keyStates s).1, (blurGo hb s.keyStates s).2.1, some e)
  | none =>
      ({ (blurGo hb s.keyStates s).1 with
          axisValues :=
            (blurGo hb s.keyStates s).1.axisValues.map (fun p => (p.1, 0)) },
        (blurGo hb s.keyStates s).2.1, none)

/-- The constructor: fresh empty maps, resetBindings, loadBindings from
the given storage content, then enableContext of the player context.
Registration with the service locator and the event listener setup do
not touch any modelled field. -/
def initialState (st0 : Option (List IInputBinding)) : EngineState :=
  let s0 : EngineState :=
    { actionHandlers := [], bindings := [], activeContexts := [],
      keyStates := [], actionStates := [], axisValues := [], storage := st0 }
  enableContext (loadBindings (resetBindings s0)) PLAYER

/-- Every externally triggerable mutation of the engine after
construction: the five raw event kinds, focus loss, and the consumer
facing API calls that mutate state. -/
inductive Event where
  | keyDown (rawKey : String)
  | keyUp (rawKey : String)
  | mouseDown (button : Nat)
  | mouseUp (button : Nat)
  | mouseMove
  | blur
  | register (a : InputActionType) (hid : Nat)
  | unregister (a : InputActionType) (hid : Nat)
  | enableCtx (c : InputContext)
  | disableCtx (c : InputContext)
  | rebind (a : InputActionType) (p : String) (sec : Option String)
  | reset
  | save
  | load

/-- One engine step, with the handler invocations it performed and the
exception that escaped it, if any. -/
def stepL (hb : HB) (s : EngineState) : Event →
    EngineState × List Invoc × Option String
  | Event.keyDown k => handleKeyDownL hb s k
  | Event.keyUp k => handleKeyUpL hb s k
  | Event.mouseDown n => handleMouseDownL hb s n
  | Event.mouseUp n => handleMouseUpL hb s n
  | Event.mouseMove => (handleMouseMove s, [], none)
  | Event.blur => handleWindowBlurL hb s
  | Event.register a hid => (registerActionHandler s a hid, [], none)
  | Event.unregister a hid => (unregisterActionHandler s a hid, [], none)
  | Event.enableCtx c => (enableContext s c, [], none)
  | Event.disableCtx c => (disableContext s c, [], none)
  | Event.rebind a p sec => ((rebindAction s a p sec).1, [], none)
  | Event.reset => (resetBindings s, [], none)
  | Event.save => (saveBindings s, [], none)
  | Event.load => (loadBindings s, [], none)

/-- One engine step, state only. -/
def stepE (hb : HB) (s : EngineState) (e : Event) : EngineState :=
  (stepL hb s e).1

/-- The engine states reachable from construction through any sequence
of events. -/
inductive Reachable (hb : HB) : EngineState → Prop where
  | init (st0 : Option (List IInputBinding)) : Reachable hb (initialState st0)
  | step {s : EngineState} (hs : Reachable hb s) (e : Event) :
      Reachable hb (stepE hb s e)

/-- Every invocation recorded by the handler loop names the action it
was run for. -/
theorem runHandlers_action (hb : HB) (a : InputActionType) (st : InputState)
    (v : Option HValue) :
    ∀ (hs : List Nat) (inv : Invoc), inv ∈ (runHandlers hb a st v hs).1 →
      inv.action = a := by
  intro hs
  induction hs with
  | nil => intro inv h; simp [runHandlers] at h
  | cons h0 rest ih =>
      intro inv h
      unfold runHandlers at h
      cases hr : hb h0 st v with
      | error e =>
          rw [hr] at h
          simp at h
          simp [h]
      | ok u =>
          rw [hr] at h
          simp at h
          rcases h with h | h
          · simp [h]
          · exact ih inv h

/-- Under handlers that never throw, the handler loop invokes every
handler in order and reports no exception. -/
theorem runHandlers_ok (hb : HB) (hok : HOk hb) (a : InputActionType)
    (st : InputState) (v : Option HValue) :
    ∀ hs : List Nat,
      runHandlers hb a st v hs =
        (hs.map (fun h => (⟨a, h, st, v⟩ : Invoc)), none) := by
  intro hs
  induction hs with
  | nil => rfl
  | cons h0 rest ih => simp [runHandlers, hok h0 st v, ih]

/-- Under handlers that never throw, notifyActionHandlers invokes the
whole registered handler Set of the action with the computed payload. -/
theorem notify_ok (hb : HB) (hok : HOk hb) (s : EngineState)
    (a : InputActionType) (st : InputState) :
    notifyActionHandlers hb s a st =
      ((agetD s.actionHandlers a []).map
        (fun h => (⟨a, h, st, valueFor s a⟩ : Invoc)), none) := by
  unfold notifyActionHandlers
  cases hg : aget s.actionHandlers a with
  | none => simp [agetD, hg]
  | some hs => simp [agetD, hg, runHandlers_ok hb hok]


/-- Unfolding equation for the dispatch loop on a scanned entry. -/
theorem picGo_cons (hb : HB) (key : String) (pressed : Bool)
    (a : InputActionType) (b : IInputBinding)
    (rest : List (InputActionType × IInputBinding)) (s : EngineState) :
    picGo hb key pressed ((a, b) :: rest) s =
      if b.context ∈ s.activeContexts then
        if b.primary = key ∨ b.secondary = some key then
          match (notifyActionHandlers hb (dispatchCommit s a (newStateFor pressed)) a (newStateFor pressed)).2 with
          | some e =>
              (dispatchCommit s a (newStateFor pressed),
               (notifyActionHandlers hb (dispatchCommit s a (newStateFor pressed)) a (newStateFor pressed)).1,
               some e)
          | none =>
              ((picGo hb key pressed rest (dispatchCommit s a (newStateFor pressed))).1,
               (notifyActionHandlers hb (dispatchCommit s a (newStateFor pressed)) a (newStateFor pressed)).1 ++
                 (picGo hb key pressed rest (dispatchCommit s a (newStateFor pressed))).2.1,
               (picGo hb key pressed rest (dispatchCommit s a (newStateFor pressed))).2.2)
        else picGo hb key pressed rest s
      else picGo hb key pressed rest s := by
  rfl

/-- The dispatch loop mutates only the action state map: every other
field of the engine is returned unchanged, whether or not an exception
escaped. -/
theorem picGo_preserves (hb : HB) (key : String) (pressed : Bool) :
    ∀ (l : List (InputActionType × IInputBinding)) (s : EngineState),
      (picGo hb key pressed l s).1.actionHandlers = s.actionHandlers ∧
      (picGo hb key pressed l s).1.bindings = s.bindings ∧
      (picGo hb key pressed l s).1.activeContexts = s.activeContexts ∧
      (picGo hb key pressed l s).1.keyStates = s.keyStates ∧
      (picGo hb key pressed l s).1.axisValues = s.axisValues ∧
      (picGo hb key pressed l s).1.storage = s.storage := by
  intro l
  induction l with
  | nil => intro s; simp [picGo]
  | cons p rest ih =>
      obtain ⟨a, b⟩ := p
      intro s
      rw [picGo_cons]
      by_cases hc : b.context ∈ s.activeContexts
      · by_cases hk : b.primary = key ∨ b.secondary = some key
        · rw [if_pos hc, if_pos hk]
          split
          · exact ⟨rfl, rfl, rfl, rfl, rfl, rfl⟩
          · exact ih (dispatchCommit s a (newStateFor pressed))
        · rw [if_pos hc, if_neg hk]; exact ih s
      · rw [if_neg hc]; exact ih s

/-- An action with no entry among the scanned bindings keeps its
discrete state across the dispatch loop. -/
theorem picGo_state_not_mem (hb : HB) (key : String) (pressed : Bool)
    (a : InputActionType) :
    ∀ (l : List (InputActionType × IInputBinding)) (s : EngineState),
      a ∉ l.map Prod.fst →
      aget (picGo hb key pressed l s).1.actionStates a =
        aget s.actionStates a := by
  intro l
  induction l with
  | nil => intro s _; simp [picGo]
  | cons p rest ih =>
      obtain ⟨a0, b⟩ := p
      intro s hmem
      simp only [List.map_cons, List.mem_cons] at hmem
      push_neg at hmem
      rw [picGo_cons]
      by_cases hc : b.context ∈ s.activeContexts
      · by_cases hk : b.primary = key ∨ b.secondary = some key
        · rw [if_pos hc, if_pos hk]
          split
          · exact aget_aset_ne _ _ _ _ hmem.1
          · rw [ih _ hmem.2]
            exact aget_aset_ne _ _ _ _ hmem.1
        · rw [if_pos hc, if_neg hk]; exact ih s hmem.2
      · rw [if_neg hc]; exact ih s hmem.2

/-- A release dispatch never moves an action out of the released state. -/
theorem picGo_released_stays (hb : HB) (key : String) (a : InputActionType) :
    ∀ (l : List (InputActionType × IInputBinding)) (s : EngineState),
      aget s.actionStates a = some InputState.RELEASED →
      aget (picGo hb key false l s).1.actionStates a =
        some InputState.RELEASED := by
  intro l
  induction l with
  | nil => intro s h; simpa [picGo] using h
  | cons p rest ih =>
      obtain ⟨a0, b⟩ := p
      intro s h
      have hset : aget (aset s.actionStates a0 (newStateFor false)) a =
          some InputState.RELEASED := by
        by_cases he : a = a0
        · subst he
          rw [aget_aset_self]
          rfl
        · rw [aget_aset_ne _ _ _ _ he]; exact h
      rw [picGo_cons]
      by_cases hc : b.context ∈ s.activeContexts
      · by_cases hk : b.primary = key ∨ b.secondary = some key
        · rw [if_pos hc, if_pos hk]
          split
          · exact hset
          · exact ih _ hset
        · rw [if_pos hc, if_neg hk]; exact ih s h
      · rw [if_neg hc]; exact ih s h

/-- Every invocation recorded by notifyActionHandlers names the action
it was run for. -/
theorem notify_action (hb : HB) (s : EngineState) (a : InputActionType)
    (st : InputState) :
    ∀ inv ∈ (notifyActionHandlers hb s a st).1, inv.action = a := by
  intro inv h
  unfold notifyActionHandlers at h
  cases hg : aget s.actionHandlers a with
  | none => rw [hg] at h; simp at h
  | some hs =>
      rw [hg] at h
      exact runHandlers_action hb a st (valueFor s a) hs inv h

/-- Dispatch hit: for a binding entry whose context is enabled and
whose primary or secondary control equals the key, the loop commits
the new discrete state for that action and invokes every handler
registered for it with that state, provided no handler throws. -/
theorem picGo_hit (hb : HB) (key : String) (pressed : Bool) (hok : HOk hb) :
    ∀ (l : List (InputActionType × IInputBinding)) (s : EngineState)
      (a : InputActionType) (b : IInputBinding),
      (l.map Prod.fst).Nodup → (a, b) ∈ l →
      b.context ∈ s.activeContexts →
      (b.primary = key ∨ b.secondary = some key) →
      aget (picGo hb key pressed l s).1.actionStates a =
          some (newStateFor pressed) ∧
      ∀ hid ∈ agetD s.actionHandlers a [],
        ∃ v, (⟨a, hid, newStateFor pressed, v⟩ : Invoc) ∈
          (picGo hb key pressed l s).2.1 := by
  intro l
  induction l with
  | nil => intro s a b _ hmem; simp at hmem
  | cons p rest ih =>
      obtain ⟨a0, b0⟩ := p
      intro s a b hnd hmem hctx hkey
      simp only [List.map_cons, List.nodup_cons] at hnd
      rcases List.mem_cons.mp hmem with h1 | h1
      · obtain ⟨ha, hbb⟩ := Prod.mk.injEq .. ▸ h1
        subst ha
        subst hbb
        rw [picGo_cons, if_pos hctx, if_pos hkey]
        rw [notify_ok hb hok]
        constructor
        · rw [picGo_state_not_mem hb key pressed a rest _ hnd.1]
          exact aget_aset_self _ _ _
        · intro hid hh
          refine ⟨valueFor (dispatchCommit s a (newStateFor pressed)) a,
            List.mem_append_left _ ?_⟩
          exact List.mem_map.mpr ⟨hid, hh, rfl⟩
      · have hne : a0 ≠ a := by
          intro he
          subst he
          exact hnd.1 (List.mem_map.mpr ⟨(a0, b), h1, rfl⟩)
        by_cases hc0 : b0.context ∈ s.activeContexts
        · by_cases hk0 : b0.primary = key ∨ b0.secondary = some key
          · rw [picGo_cons, if_pos hc0, if_pos hk0, notify_ok hb hok]
            obtain ⟨hstate, hlog⟩ :=
              ih (dispatchCommit s a0 (newStateFor pressed)) a b hnd.2 h1
                hctx hkey
            constructor
            · exact hstate
            · intro hid hh
              obtain ⟨v, hv⟩ := hlog hid hh
              exact ⟨v, List.mem_append_right _ hv⟩
          · rw [picGo_cons, if_pos hc0, if_neg hk0]
            exact ih s a b hnd.2 h1 hctx hkey
        · rw [picGo_cons, if_neg hc0]
          exact ih s a b hnd.2 h1 hctx hkey

/-- Dispatch miss: an action all of whose entries among the scanned
bindings are gated off or bound to other controls keeps its discrete
state and receives no handler invocation, whether or not an exception
escaped elsewhere. -/
theorem picGo_miss (hb : HB) (key : String) (pressed : Bool) :
    ∀ (l : List (InputActionType × IInputBinding)) (s : EngineState)
      (a : InputActionType),
      (∀ b, (a, b) ∈ l →
        b.context ∉ s.activeContexts ∨
          (b.primary ≠ key ∧ b.secondary ≠ some key)) →
      aget (picGo hb key pressed l s).1.actionStates a =
          aget s.actionStates a ∧
      ∀ inv ∈ (picGo hb key pressed l s).2.1, inv.action ≠ a := by
  intro l
  induction l with
  | nil => intro s a _; simp [picGo]
  | cons p rest ih =>
      obtain ⟨a0, b0⟩ := p
      intro s a hskip
      have hrest : ∀ b, (a, b) ∈ rest →
          b.context ∉ s.activeContexts ∨
            (b.primary ≠ key ∧ b.secondary ≠ some key) :=
        fun b hb2 => hskip b (List.mem_cons_of_mem _ hb2)
      by_cases hea : a0 = a
      · subst hea
        have h0 := hskip b0 (List.mem_cons_self _ _)
        by_cases hc0 : b0.context ∈ s.activeContexts
        · have hk0 : ¬ (b0.primary = key ∨ b0.secondary = some key) := by
            rcases h0 with h0 | h0
            · exact absurd hc0 h0
            · rintro (hp | hsec)
              · exact h0.1 hp
              · exact h0.2 hsec
          rw [picGo_cons, if_pos hc0, if_neg hk0]
          exact ih s a0 hrest
        · rw [picGo_cons, if_neg hc0]
          exact ih s a0 hrest
      · by_cases hc0 : b0.context ∈ s.activeContexts
        · by_cases hk0 : b0.primary = key ∨ b0.secondary = some key
          · rw [picGo_cons, if_pos hc0, if_pos hk0]
            split
            · constructor
              · exact aget_aset_ne _ _ _ _ (fun he => hea he.symm)
              · intro inv hinv he
                have := notify_action hb
                  (dispatchCommit s a0 (newStateFor pressed)) a0
                  (newStateFor pressed) inv hinv
                exact hea (this ▸ he ▸ rfl)
            · have hrec := ih (dispatchCommit s a0 (newStateFor pressed)) a hrest
              constructor
              · rw [hrec.1]
                exact aget_aset_ne _ _ _ _ (fun he => hea he.symm)
              · intro inv hinv he
                rcases List.mem_append.mp hinv with hmm | hmm
                · have := notify_action hb
                    (dispatchCommit s a0 (newStateFor pressed)) a0
                    (newStateFor pressed) inv hmm
                  exact hea (this ▸ he ▸ rfl)
                · exact hrec.2 inv hmm he
          · rw [picGo_cons, if_pos hc0, if_neg hk0]
            exact ih s a hrest
        · rw [picGo_cons, if_neg hc0]
          exact ih s a hrest

/-- Unfolding equation for the handleWindowBlur loop on a tracked entry. -/
theorem blurGo_cons (hb : HB) (k : String) (pressed : Bool)
    (rest : List (String × Bool)) (s : EngineState) :
    blurGo hb ((k, pressed) :: rest) s =
      if pressed then
        match (blurStep hb s k).2.2 with
        | some e => ((blurStep hb s k).1, (blurStep hb s k).2.1, some e)
        | none =>
            ((blurGo hb rest (blurStep hb s k).1).1,
             (blurStep hb s k).2.1 ++ (blurGo hb rest (blurStep hb s k).1).2.1,
             (blurGo hb rest (blurStep hb s k).1).2.2)
      else blurGo hb rest s := by
  rfl

/-- A call is well behaved under okInv when the handler returns
normally at exactly these arguments. -/
def okInv (hb : HB) (i : Invoc) : Prop :=
  hb i.hid i.st i.value = Except.ok ()

/-- The relation between an invocation log and a reported exception
that the source loop guarantees: with no exception every logged call
returned normally, and with an exception the log ends at the throwing
call, every call before it having returned normally. -/
def stopsAtError (hb : HB) (log : List Invoc) (err : Option String) : Prop :=
  match err with
  | none => ∀ i ∈ log, okInv hb i
  | some e => ∃ pre lst, log = pre ++ [lst] ∧ (∀ i ∈ pre, okInv hb i) ∧
      hb lst.hid lst.st lst.value = Except.error e

theorem stopsAtError_append (hb : HB) (l1 l2 : List Invoc) (e : Option String)
    (h1 : ∀ i ∈ l1, okInv hb i) (h2 : stopsAtError hb l2 e) :
    stopsAtError hb (l1 ++ l2) e := by
  cases e with
  | none =>
      intro i hi
      rcases List.mem_append.mp hi with h | h
      · exact h1 i h
      · exact h2 i h
  | some e0 =>
      obtain ⟨pre, lst, heq, hpre, herr⟩ := h2
      refine ⟨l1 ++ pre, lst, ?_, ?_, herr⟩
      · rw [heq, List.append_assoc]
      · intro i hi
        rcases List.mem_append.mp hi with h | h
        · exact h1 i h
        · exact hpre i h

/-- The handler loop stops at the first throwing handler and reports
exactly that exception. -/
theorem runHandlers_stops (hb : HB) (a : InputActionType) (st : InputState)
    (v : Option HValue) :
    ∀ hs : List Nat,
      stopsAtError hb (runHandlers hb a st v hs).1 (runHandlers hb a st v hs).2 := by
  intro hs
  induction hs with
  | nil => intro i hi; simp [runHandlers] at hi
  | cons h0 rest ih =>
      cases hr : hb h0 st v with
      | error e =>
          have hred : runHandlers hb a st v (h0 :: rest) =
              ([⟨a, h0, st, v⟩], some e) := by
            simp [runHandlers, hr]
          rw [hred]
          refine ⟨[], ⟨a, h0, st, v⟩, rfl, ?_, hr⟩
          intro i hi
          simp at hi
      | ok u =>
          cases u
          have hred : runHandlers hb a st v (h0 :: rest) =
              (⟨a, h0, st, v⟩ :: (runHandlers hb a st v rest).1,
                (runHandlers hb a st v rest).2) := by
            simp [runHandlers, hr]
          rw [hred]
          cases he2 : (runHandlers hb a st v rest).2 with
          | none =>
              rw [he2] at ih
              intro i hi
              rcases List.mem_cons.mp hi with h | h
              · subst h; exact hr
              · exact ih i h
          | some e =>
              rw [he2] at ih
              obtain ⟨pre, lst, heq, hpre, herr⟩ := ih
              refine ⟨⟨a, h0, st, v⟩ :: pre, lst, by rw [heq]; rfl, ?_, herr⟩
              intro i hi
              rcases List.mem_cons.mp hi with h | h
              · subst h; exact hr
              · exact hpre i h

/-- The notification of one action stops at the first throwing handler. -/
theorem notify_stops (hb : HB) (s : EngineState) (a : InputActionType)
    (st : InputState) :
    stopsAtError hb (notifyActionHandlers hb s a st).1
      (notifyActionHandlers hb s a st).2 := by
  unfold notifyActionHandlers
  cases hg : aget s.actionHandlers a with
  | none => intro i hi; simp at hi
  | some hs => exact runHandlers_stops hb a st (valueFor s a) hs

/-- The whole dispatch loop stops at the first throwing handler: an
exception reported by the loop is the one the last logged invocation
raised, every earlier logged invocation returned normally, and no
handler after the throwing one was invoked. -/
theorem picGo_stops (hb : HB) (key : String) (pressed : Bool) :
    ∀ (l : List (InputActionType × IInputBinding)) (s : EngineState),
      stopsAtError hb (picGo hb key pressed l s).2.1
        (picGo hb key pressed l s).2.2 := by
  intro l
  induction l with
  | nil => intro s i hi; simp [picGo] at hi
  | cons p rest ih =>
      obtain ⟨a, b⟩ := p
      intro s
      rw [picGo_cons]
      by_cases hc : b.context ∈ s.activeContexts
      · by_cases hk : b.primary = key ∨ b.secondary = some key
        · rw [if_pos hc, if_pos hk]
          have hn := notify_stops hb (dispatchCommit s a (newStateFor pressed)) a
            (newStateFor pressed)
          split
          next e herr =>
            rw [herr] at hn
            exact hn
          next herr =>
            rw [herr] at hn
            exact stopsAtError_append hb _ _ _ (fun i hi => hn i hi)
              (ih (dispatchCommit s a (newStateFor pressed)))
        · rw [if_pos hc, if_neg hk]; exact ih s
      · rw [if_neg hc]; exact ih s

/-- Under handlers that never throw, the dispatch loop reports no
exception. -/
theorem picGo_err_none (hb : HB) (hok : HOk hb) (key : String) (pressed : Bool) :
    ∀ (l : List (InputActionType × IInputBinding)) (s : EngineState),
      (picGo hb key pressed l s).2.2 = none := by
  intro l
  induction l with
  | nil => intro s; simp [picGo]
  | cons p rest ih =>
      obtain ⟨a, b⟩ := p
      intro s
      rw [picGo_cons]
      by_cases hc : b.context ∈ s.activeContexts
      · by_cases hk : b.primary = key ∨ b.secondary = some key
        · rw [if_pos hc, if_pos hk, notify_ok hb hok]
          exact ih (dispatchCommit s a (newStateFor pressed))
        · rw [if_pos hc, if_neg hk]; exact ih s
      · rw [if_neg hc]; exact ih s

/-- One blur release changes only the treated raw control entry; all
other engine fields come back as they were. -/
theorem blurStep_fields (hb : HB) (s : EngineState) (k : String) :
    (blurStep hb s k).1.keyStates = aset s.keyStates k false ∧
    (blurStep hb s k).1.bindings = s.bindings ∧
    (blurStep hb s k).1.activeContexts = s.activeContexts ∧
    (blurStep hb s k).1.actionHandlers = s.actionHandlers ∧
    (blurStep hb s k).1.axisValues = s.axisValues := by
  have h := picGo_preserves hb k false
    ({ s with keyStates := aset s.keyStates k false } : EngineState).bindings
    { s with keyStates := aset s.keyStates k false }
  exact ⟨h.2.2.2.1, h.2.1, h.2.2.1, h.1, h.2.2.2.2.1⟩

/-- A raw control with no entry among the iterated ones keeps its
state across the blur loop. -/
theorem blurGo_key_not_mem (hb : HB) :
    ∀ (l : List (String × Bool)) (s : EngineState) (k : String),
      k ∉ l.map Prod.fst →
      aget (blurGo hb l s).1.keyStates k = aget s.keyStates k := by
  intro l
  induction l with
  | nil => intro s k _; simp [blurGo]
  | cons p rest ih =>
      obtain ⟨k0, p0⟩ := p
      intro s k hmem
      simp only [List.map_cons, List.mem_cons] at hmem
      push_neg at hmem
      rw [blurGo_cons]
      by_cases hp0 : p0 = true
      · rw [if_pos hp0]
        split
        next e herr =>
          rw [(blurStep_fields hb s k0).1]
          exact aget_aset_ne _ _ _ _ hmem.1
        next herr =>
          rw [ih _ k hmem.2, (blurStep_fields hb s k0).1]
          exact aget_aset_ne _ _ _ _ hmem.1
      · rw [if_neg hp0]; exact ih s k hmem.2

/-- Under handlers that never throw, every control iterated as pressed
ends the blur loop recorded as released. -/
theorem blurGo_sets_false (hb : HB) (hok : HOk hb) :
    ∀ (l : List (String × Bool)) (s : EngineState),
      (l.map Prod.fst).Nodup →
      ∀ k, (k, true) ∈ l →
        aget (blurGo hb l s).1.keyStates k = some false := by
  intro l
  induction l with
  | nil => intro s _ k hk; simp at hk
  | cons p rest ih =>
      obtain ⟨k0, p0⟩ := p
      intro s hnd k hk
      simp only [List.map_cons, List.nodup_cons] at hnd
      have herr : (blurStep hb s k0).2.2 = none :=
        picGo_err_none hb hok k0 false _ _
      rcases List.mem_cons.mp hk with h1 | h1
      · obtain ⟨hk1, hp1⟩ := Prod.mk.injEq .. ▸ h1
        subst hk1
        rw [blurGo_cons, if_pos hp1.symm, herr]
        show aget (blurGo hb rest (blurStep hb s k).1).1.keyStates k = some false
        rw [blurGo_key_not_mem hb rest _ k hnd.1, (blurStep_fields hb s k).1]
        exact aget_aset_self _ _ _
      · by_cases hp0 : p0 = true
        · rw [blurGo_cons, if_pos hp0, herr]
          show aget (blurGo hb rest (blurStep hb s k0).1).1.keyStates k = some false
          exact ih _ hnd.2 k h1
        · rw [blurGo_cons, if_neg hp0]
          exact ih s hnd.2 k h1

/-- The blur loop never moves an action out of the released state. -/
theorem blurGo_released_stays (hb : HB) (a : InputActionType) :
    ∀ (l : List (String × Bool)) (s : EngineState),
      aget s.actionStates a = some InputState.RELEASED →
      aget (blurGo hb l s).1.actionStates a = some InputState.RELEASED := by
  intro l
  induction l with
  | nil => intro s h; simpa [blurGo] using h
  | cons p rest ih =>
      obtain ⟨k0, p0⟩ := p
      intro s h
      rw [blurGo_cons]
      by_cases hp0 : p0 = true
      · rw [if_pos hp0]
        have hstep : aget (blurStep hb s k0).1.actionStates a =
            some InputState.RELEASED :=
          picGo_released_stays hb k0 a
            ({ s with keyStates := aset s.keyStates k0 false } : EngineState).bindings
            { s with keyStates := aset s.keyStates k0 false } h
        split
        next e herr => exact hstep
        next herr => exact ih _ hstep
      · rw [if_neg hp0]; exact ih s h

/-- The blur loop changes only raw control states and action states. -/
theorem blurGo_fields (hb : HB) :
    ∀ (l : List (String × Bool)) (s : EngineState),
      (blurGo hb l s).1.actionHandlers = s.actionHandlers ∧
      (blurGo hb l s).1.bindings = s.bindings ∧
      (blurGo hb l s).1.activeContexts = s.activeContexts ∧
      (blurGo hb l s).1.axisValues = s.axisValues := by
  intro l
  induction l with
  | nil => intro s; simp [blurGo]
  | cons p rest ih =>
      obtain ⟨k0, p0⟩ := p
      intro s
      rw [blurGo_cons]
      by_cases hp0 : p0 = true
      · rw [if_pos hp0]
        have hf := blurStep_fields hb s k0
        split
        next e herr => exact ⟨hf.2.2.2.1, hf.2.1, hf.2.2.1, hf.2.2.2.2⟩
        next herr =>
          have hrec := ih (blurStep hb s k0).1
          exact ⟨hrec.1.trans hf.2.2.2.1, hrec.2.1.trans hf.2.1,
            hrec.2.2.1.trans hf.2.2.1, hrec.2.2.2.trans hf.2.2.2.2⟩
      · rw [if_neg hp0]; exact ih s

/-- Under handlers that never throw, the blur loop reports no
exception. -/
theorem blurGo_err_none (hb : HB) (hok : HOk hb) :
    ∀ (l : List (String × Bool)) (s : EngineState),
      (blurGo hb l s).2.2 = none := by
  intro l
  induction l with
  | nil => intro s; simp [blurGo]
  | cons p rest ih =>
      obtain ⟨k0, p0⟩ := p
      intro s
      have herr : (blurStep hb s k0).2.2 = none :=
        picGo_err_none hb hok k0 false _ _
      rw [blurGo_cons]
      by_cases hp0 : p0 = true
      · rw [if_pos hp0, herr]
        exact ih _
      · rw [if_neg hp0]; exact ih s

/-- Under handlers that never throw, every action bound through an
enabled context to a control iterated as pressed ends the blur loop in
the released state, and every one of its registered handlers receives a
released invocation. -/
theorem blurGo_hits (hb : HB) (hok : HOk hb) :
    ∀ (l : List (String × Bool)) (s : EngineState) (k : String)
      (a : InputActionType) (bb : IInputBinding),
      (s.bindings.map Prod.fst).Nodup →
      (k, true) ∈ l →
      aget s.bindings a = some bb →
      bb.context ∈ s.activeContexts →
      (bb.primary = k ∨ bb.secondary = some k) →
      aget (blurGo hb l s).1.actionStates a = some InputState.RELEASED ∧
      ∀ hid ∈ agetD s.actionHandlers a [],
        ∃ v, (⟨a, hid, InputState.RELEASED, v⟩ : Invoc) ∈ (blurGo hb l s).2.1 := by
  intro l
  induction l with
  | nil => intro s k a bb _ hk; simp at hk
  | cons p rest ih =>
      obtain ⟨k0, p0⟩ := p
      intro s k a bb hnd hk hget hctx hkey
      have herr : (blurStep hb s k0).2.2 = none :=
        picGo_err_none hb hok k0 false _ _
      rcases List.mem_cons.mp hk with h1 | h1
      · obtain ⟨hk1, hp1⟩ := Prod.mk.injEq .. ▸ h1
        subst hk1
        rw [blurGo_cons, if_pos hp1.symm, herr]
        have hhit := picGo_hit hb k false hok
          ({ s with keyStates := aset s.keyStates k false } : EngineState).bindings
          { s with keyStates := aset s.keyStates k false } a bb hnd
          (mem_of_aget hget) hctx hkey
        constructor
        · show aget (blurGo hb rest (blurStep hb s k).1).1.actionStates a =
            some InputState.RELEASED
          exact blurGo_released_stays hb a rest _ hhit.1
        · intro hid hh
          obtain ⟨v, hv⟩ := hhit.2 hid hh
          show ∃ v2, (⟨a, hid, InputState.RELEASED, v2⟩ : Invoc) ∈
            (blurStep hb s k).2.1 ++ (blurGo hb rest (blurStep hb s k).1).2.1
          exact ⟨v, List.mem_append_left _ hv⟩
      · by_cases hp0 : p0 = true
        · rw [blurGo_cons, if_pos hp0, herr]
          have hf := blurStep_fields hb s k0
          have hget2 : aget (blurStep hb s k0).1.bindings a = some bb := by
            rw [hf.2.1]; exact hget
          have hnd2 : ((blurStep hb s k0).1.bindings.map Prod.fst).Nodup := by
            rw [hf.2.1]; exact hnd
          have hctx2 : bb.context ∈ (blurStep hb s k0).1.activeContexts := by
            rw [hf.2.2.1]; exact hctx
          obtain ⟨hstate, hlog⟩ :=
            ih (blurStep hb s k0).1 k a bb hnd2 h1 hget2 hctx2 hkey
          constructor
          · exact hstate
          · intro hid hh
            have hh2 : hid ∈ agetD (blurStep hb s k0).1.actionHandlers a [] := by
              rw [hf.2.2.2.1]; exact hh
            obtain ⟨v, hv⟩ := hlog hid hh2
            exact ⟨v, List.mem_append_right _ hv⟩
        · rw [blurGo_cons, if_neg hp0]
          exact ih s k a bb hnd h1 hget hctx hkey

/-- Lookup in a map whose values were all replaced by 0. -/
theorem aget_zeroAll {α : Type} [DecidableEq α] (m : List (α × Int)) (k : α) :
    aget (m.map (fun p => (p.1, (0 : Int)))) k =
      (aget m k).map (fun _ => (0 : Int)) := by
  induction m with
  | nil => simp [aget]
  | cons p rest ih =>
      obtain ⟨k0, v0⟩ := p
      by_cases h0 : k0 = k
      · simp [aget, h0]
      · simp [aget, h0, ih]

/-- loadBindings changes only the binding table. -/
theorem loadBindings_fields (s : EngineState) :
    (loadBindings s).actionHandlers = s.actionHandlers ∧
    (loadBindings s).activeContexts = s.activeContexts ∧
    (loadBindings s).keyStates = s.keyStates ∧
    (loadBindings s).actionStates = s.actionStates ∧
    (loadBindings s).axisValues = s.axisValues ∧
    (loadBindings s).storage = s.storage := by
  unfold loadBindings
  cases h : s.storage with
  | none => exact ⟨rfl, rfl, rfl, rfl, rfl, h⟩
  | some data => exact ⟨rfl, rfl, rfl, rfl, rfl, rfl⟩

/-- The fields of the freshly constructed engine other than the binding
table and the storage: no handlers, the player context enabled, no
tracked raw control, no action state, no axis value. -/
theorem initialState_fields (st0 : Option (List IInputBinding)) :
    (initialState st0).actionHandlers = [] ∧
    (initialState st0).activeContexts = [InputContext.PLAYER] ∧
    (initialState st0).keyStates = [] ∧
    (initialState st0).actionStates = [] ∧
    (initialState st0).axisValues = [] := by
  cases st0 with
  | none => exact ⟨rfl, rfl, rfl, rfl, rfl⟩
  | some data => exact ⟨rfl, rfl, rfl, rfl, rfl⟩

/-- With no tracked raw control, no action reports a pressed bound
control. -/
theorem isKey_of_empty (s : EngineState) (h : s.keyStates = []) :
    ∀ a, isKeyForActionPressed s a = false := by
  intro a
  unfold isKeyForActionPressed
  cases hg : aget s.bindings a with
  | none => rfl
  | some b =>
      rw [h]
      cases hsec : b.secondary with
      | none => simp [agetD, aget, hsec]
      | some sec => simp [agetD, aget, hsec]

/-- Stated from the claim wording, for comparison with the code: the
axis of an opposing pair is +1 exactly when only the positive side has
a pressed bound control, -1 exactly when only the negative side has,
and 0 when both or neither have. -/
def specAxis (s : EngineState) (pos neg : InputActionType) : Int :=
  if isKeyForActionPressed s pos && !(isKeyForActionPressed s neg) then 1
  else if isKeyForActionPressed s neg && !(isKeyForActionPressed s pos) then -1
  else 0

/-- The code side axis sample coincides with the axis the claim
describes. -/
theorem axisFromKeys_eq_spec (s : EngineState) (pos neg : InputActionType) :
    axisFromKeys s pos neg = specAxis s pos neg := by
  unfold axisFromKeys specAxis
  cases hp : isKeyForActionPressed s pos <;>
    cases hn : isKeyForActionPressed s neg <;> simp

/-- After updateAxisValues, the stored horizontal axis (under
MOVE_RIGHT) and vertical axis (under MOVE_FORWARD) are the samples
recomputed from the current raw key states. -/
theorem updateAxis_values (s : EngineState) :
    getAxisValue (updateAxisValues s) MOVE_RIGHT =
        axisFromKeys s MOVE_RIGHT MOVE_LEFT ∧
    getAxisValue (updateAxisValues s) MOVE_FORWARD =
        axisFromKeys s MOVE_FORWARD MOVE_BACKWARD := by
  unfold updateAxisValues getAxisValue agetD
  constructor
  · rw [aget_aset_ne _ _ _ _ (show MOVE_RIGHT ≠ MOVE_FORWARD by decide),
      aget_aset_self]
    rfl
  · rw [aget_aset_self]
    rfl

/-- The axis correctness invariant of the engine: both stored movement
axis samples agree with the axis the claim describes, read on the same
state. -/
def AxisOK (s : EngineState) : Prop :=
  getAxisValue s MOVE_RIGHT = specAxis s MOVE_RIGHT MOVE_LEFT ∧
  getAxisValue s MOVE_FORWARD = specAxis s MOVE_FORWARD MOVE_BACKWARD

/-- An axis recomputation establishes the invariant on any state. -/
theorem axisOK_update (s : EngineState) : AxisOK (updateAxisValues s) :=
  ⟨(updateAxis_values s).1.trans (axisFromKeys_eq_spec s _ _),
    (updateAxis_values s).2.trans (axisFromKeys_eq_spec s _ _)⟩

/-- The freshly constructed engine satisfies the axis invariant. -/
theorem axisOK_initial (st0 : Option (List IInputBinding)) :
    AxisOK (initialState st0) := by
  have hf := initialState_fields st0
  have hkey := isKey_of_empty (initialState st0) hf.2.2.1
  have hzero : ∀ a, getAxisValue (initialState st0) a = 0 := by
    intro a
    unfold getAxisValue agetD
    rw [hf.2.2.2.2]
    rfl
  constructor
  · rw [hzero]
    unfold specAxis
    simp [hkey]
  · rw [hzero]
    unfold specAxis
    simp [hkey]

/-- A key-down event preserves the axis invariant: either the repeat
guard leaves the state untouched, or the axis values are recomputed
after the dispatch. -/
theorem handleKeyDown_axisOK (hb : HB) (hok : HOk hb) (s : EngineState)
    (rawKey : String) (h : AxisOK s) : AxisOK (handleKeyDownL hb s rawKey).1 := by
  unfold handleKeyDownL
  by_cases hg : agetD s.keyStates (strLower rawKey) false = true
  · rw [if_pos hg]
    exact h
  · rw [if_neg hg]
    have herr : (keyDispatch hb s (strLower rawKey) true).2.2 = none :=
      picGo_err_none hb hok (strLower rawKey) true _ _
    rw [herr]
    exact axisOK_update _

/-- A key-up event preserves the axis invariant by recomputation. -/
theorem handleKeyUp_axisOK (hb : HB) (hok : HOk hb) (s : EngineState)
    (rawKey : String) : AxisOK (handleKeyUpL hb s rawKey).1 := by
  unfold handleKeyUpL
  have herr : (keyDispatch hb s (strLower rawKey) false).2.2 = none :=
    picGo_err_none hb hok (strLower rawKey) false _ _
  rw [herr]
  exact axisOK_update _

/-- A keyboard interleaving: each entry presses (true) or releases
(false) the given raw key through the corresponding engine event
handler. -/
def applyKeyEvents (hb : HB) : List (Bool × String) → EngineState → EngineState
  | [], s => s
  | (isDown, k) :: rest, s =>
      applyKeyEvents hb rest
        (if isDown then (handleKeyDownL hb s k).1 else (handleKeyUpL hb s k).1)

/-- The axis invariant holds after every keyboard interleaving from
construction. -/
theorem applyKeyEvents_axisOK (hb : HB) (hok : HOk hb) :
    ∀ (evs : List (Bool × String)) (s : EngineState),
      AxisOK s → AxisOK (applyKeyEvents hb evs s) := by
  intro evs
  induction evs with
  | nil => intro s h; exact h
  | cons e rest ih =>
      obtain ⟨isDown, k⟩ := e
      intro s h
      by_cases hd : isDown = true
      · rw [hd]
        exact ih _ (handleKeyDown_axisOK hb hok s k h)
      · have hd2 : isDown = false := by revert hd; cases isDown <;> simp
        rw [hd2]
        exact ih _ (handleKeyUp_axisOK hb hok s k)

/-- Overwriting a present key does not change which keys are present. -/
theorem hasKey_aset_of_hasKey {α β : Type} [DecidableEq α]
    {m : List (α × β)} {a : α} {v : β} (hh : hasKey m a = true) (k : α) :
    hasKey (aset m a v) k = hasKey m k := by
  by_cases he : k = a
  · subst he
    rw [hh]
    simp [hasKey, aget_aset_self]
  · simp [hasKey, aget_aset_ne m a k v he]

/-- An action absent from the imported data keeps its table entry
across the import loop. -/
theorem loadFold_not_mem :
    ∀ (data : List IInputBinding) (m : List (InputActionType × IInputBinding))
      (k : InputActionType),
      k ∉ data.map IInputBinding.action →
      aget (loadFold data m) k = aget m k := by
  intro data
  induction data with
  | nil => intro m k _; rfl
  | cons b rest ih =>
      intro m k hk
      simp only [List.map_cons, List.mem_cons] at hk
      push_neg at hk
      show aget (loadFold rest
        (if hasKey m b.action then aset m b.action b else m)) k = aget m k
      rw [ih _ k hk.2]
      by_cases hh : hasKey m b.action = true
      · rw [if_pos hh]
        exact aget_aset_ne _ _ _ _ hk.1
      · rw [if_neg hh]

/-- The import loop grows no new keys. -/
theorem loadFold_hasKey :
    ∀ (data : List IInputBinding) (m : List (InputActionType × IInputBinding))
      (k : InputActionType),
      hasKey (loadFold data m) k = hasKey m k := by
  intro data
  induction data with
  | nil => intro m k; rfl
  | cons b rest ih =>
      intro m k
      show hasKey (loadFold rest
        (if hasKey m b.action then aset m b.action b else m)) k = hasKey m k
      rw [ih]
      by_cases hh : hasKey m b.action = true
      · rw [if_pos hh, hasKey_aset_of_hasKey hh]
      · rw [if_neg hh]

/-- Every imported binding whose action is present lands in the table:
after the import loop the table maps its action to exactly that
binding, provided the imported actions are pairwise distinct. -/
theorem loadFold_hits :
    ∀ (data : List IInputBinding) (m : List (InputActionType × IInputBinding)),
      (data.map IInputBinding.action).Nodup →
      (∀ b ∈ data, hasKey m b.action = true) →
      ∀ b ∈ data, aget (loadFold data m) b.action = some b := by
  intro data
  induction data with
  | nil => intro m _ _ b hb2; simp at hb2
  | cons b0 rest ih =>
      intro m hnd hall b hb2
      simp only [List.map_cons, List.nodup_cons] at hnd
      have hh0 : hasKey m b0.action = true := hall b0 (List.mem_cons_self _ _)
      rcases List.mem_cons.mp hb2 with h1 | h1
      · subst h1
        show aget (loadFold rest
          (if hasKey m b.action then aset m b.action b else m)) b.action = some b
        rw [if_pos hh0, loadFold_not_mem rest _ _ hnd.1]
        exact aget_aset_self _ _ _
      · show aget (loadFold rest
          (if hasKey m b0.action then aset m b0.action b0 else m)) b.action = some b
        rw [if_pos hh0]
        refine ih _ hnd.2 ?_ b h1
        intro b2 hb3
        rw [hasKey_aset_of_hasKey hh0]
        exact hall b2 (List.mem_cons_of_mem _ hb3)

/-- Well formedness of a binding table: pairwise distinct keys and
every entry keyed by the action its binding names. -/
def WFB (l : List (InputActionType × IInputBinding)) : Prop :=
  (l.map Prod.fst).Nodup ∧ ∀ p ∈ l, (p.2).action = p.1

/-- The default table is well formed. -/
theorem WFB_defaultAssoc : WFB defaultAssoc := by
  constructor
  · decide
  · decide

/-- Unfolding equation of rebindAction for an action with no binding. -/
theorem rebindAction_none (s : EngineState) (a : InputActionType) (p : String)
    (sec : Option String) (hget : aget s.bindings a = none) :
    rebindAction s a p sec = (s, false) := by
  unfold rebindAction
  rw [hget]

/-- Unfolding equation of rebindAction for an action with a binding. -/
theorem rebindAction_some (s : EngineState) (a : InputActionType) (p : String)
    (sec : Option String) (b : IInputBinding)
    (hget : aget s.bindings a = some b) :
    rebindAction s a p sec =
      if b.rebindable = true then
        ({ s with bindings := (aset s.bindings a { b with primary := (strLower p), secondary := rebindSecondary sec }) }, true)
      else (s, false) := by
  unfold rebindAction
  rw [hget]

/-- rebindAction keeps the table well formed and keeps its key list
unchanged, whether or not it succeeds. -/
theorem rebind_keys (s : EngineState) (a : InputActionType) (p : String)
    (sec : Option String) (h : WFB s.bindings) :
    WFB (rebindAction s a p sec).1.bindings ∧
    (rebindAction s a p sec).1.bindings.map Prod.fst =
      s.bindings.map Prod.fst := by
  cases hget : aget s.bindings a with
  | none => rw [rebindAction_none s a p sec hget]; exact ⟨h, rfl⟩
  | some b =>
      rw [rebindAction_some s a p sec b hget]
      by_cases hr : b.rebindable = true
      · rw [if_pos hr]
        have hhk : hasKey s.bindings a = true := by
          unfold hasKey
          rw [hget]
          rfl
        have hkeys := keys_aset_of_mem
          ({ b with primary := (strLower p), secondary := rebindSecondary sec } :
            IInputBinding) hhk
        refine ⟨⟨?_, ?_⟩, hkeys⟩
        · rw [hkeys]; exact h.1
        · intro q hq
          rcases mem_aset hq with h1 | h1
          · rw [h1]
            exact h.2 (a, b) (mem_of_aget hget)
          · exact h.2 q h1
      · rw [if_neg hr]
        exact ⟨h, rfl⟩

/-- A whole sequence of rebindAction calls, results discarded, applied
in order. -/
def applyRebinds (ops : List (InputActionType × String × Option String))
    (s : EngineState) : EngineState :=
  ops.foldl (fun st op => (rebindAction st op.1 op.2.1 op.2.2).1) s

/-- Any rebind sequence keeps the table well formed with the same key
list. -/
theorem applyRebinds_WFB :
    ∀ (ops : List (InputActionType × String × Option String)) (s : EngineState),
      WFB s.bindings →
      WFB (applyRebinds ops s).bindings ∧
      (applyRebinds ops s).bindings.map Prod.fst = s.bindings.map Prod.fst := by
  intro ops
  induction ops with
  | nil => intro s h; exact ⟨h, rfl⟩
  | cons op rest ih =>
      intro s h
      have h1 := rebind_keys s op.1 op.2.1 op.2.2 h
      have h2 := ih (rebindAction s op.1 op.2.1 op.2.2).1 h1.1
      exact ⟨h2.1, h2.2.trans h1.2⟩

/-- Importing the exported values of a well formed table whose keys
are those of the default table, into the default table, rebuilds the
original table entry for entry. -/
theorem roundtrip_bindings (L : List (InputActionType × IInputBinding))
    (hwf : WFB L) (hkeys : L.map Prod.fst = defaultAssoc.map Prod.fst) :
    ∀ a, aget (loadFold (L.map Prod.snd) defaultAssoc) a = aget L a := by
  have hacts : (L.map Prod.snd).map IInputBinding.action = L.map Prod.fst := by
    rw [List.map_map]
    exact List.map_congr_left (fun q hq => hwf.2 q hq)
  intro a
  by_cases hh : hasKey L a = true
  · cases hget : aget L a with
    | none =>
        unfold hasKey at hh
        rw [hget] at hh
        simp at hh
    | some b =>
        have hmem : (a, b) ∈ L := mem_of_aget hget
        have hact : b.action = a := hwf.2 (a, b) hmem
        have hb2 : b ∈ L.map Prod.snd := List.mem_map.mpr ⟨(a, b), hmem, rfl⟩
        have hnd : ((L.map Prod.snd).map IInputBinding.action).Nodup := by
          rw [hacts]; exact hwf.1
        have hall : ∀ b2 ∈ L.map Prod.snd, hasKey defaultAssoc b2.action = true := by
          intro b2 hb3
          apply hasKey_iff.mpr
          rw [← hkeys]
          have : b2.action ∈ (L.map Prod.snd).map IInputBinding.action :=
            List.mem_map.mpr ⟨b2, hb3, rfl⟩
          rw [hacts] at this
          exact this
        have hres := loadFold_hits (L.map Prod.snd) defaultAssoc hnd hall b hb2
        rw [hact] at hres
        exact hres
  · have hno : a ∉ (L.map Prod.snd).map IInputBinding.action := by
      rw [hacts]
      intro hmem2
      exact hh (hasKey_iff.mpr hmem2)
    rw [loadFold_not_mem _ _ _ hno]
    have hfalse : hasKey L a = false := by
      revert hh; cases hasKey L a <;> simp
    have hd : hasKey defaultAssoc a = false := by
      by_cases hdd : hasKey defaultAssoc a = true
      · exact absurd (hasKey_iff.mpr (hkeys ▸ hasKey_iff.mp hdd)) (by rw [hfalse]; simp)
      · revert hdd; cases hasKey defaultAssoc a <;> simp
    rw [aget_eq_none_of_not_hasKey hd, aget_eq_none_of_not_hasKey hfalse]

/-- An element added to a Set is in it. -/
theorem mem_sadd_self {α : Type} [DecidableEq α] (l : List α) (a : α) :
    a ∈ sadd l a := by
  unfold sadd
  by_cases h : a ∈ l
  · simp [h]
  · simp [h]

/-- The dispatch run by a raw transition leaves the active contexts
unchanged. -/
theorem keyDispatch_ctx (hb : HB) (s : EngineState) (key : String)
    (pressed : Bool) :
    (keyDispatch hb s key pressed).1.activeContexts = s.activeContexts :=
  (picGo_preserves hb key pressed
    ({ s with keyStates := aset s.keyStates key pressed } : EngineState).bindings
    { s with keyStates := aset s.keyStates key pressed }).2.2.1

/-- The dispatch run by a raw transition leaves the axis values
unchanged. -/
theorem keyDispatch_axis (hb : HB) (s : EngineState) (key : String)
    (pressed : Bool) :
    (keyDispatch hb s key pressed).1.axisValues = s.axisValues :=
  (picGo_preserves hb key pressed
    ({ s with keyStates := aset s.keyStates key pressed } : EngineState).bindings
    { s with keyStates := aset s.keyStates key pressed }).2.2.2.2.1

/-- Every invocation recorded by the handler loop carries the payload
it was started with. -/
theorem runHandlers_value (hb : HB) (a : InputActionType) (st : InputState)
    (v : Option HValue) :
    ∀ (hs : List Nat) (inv : Invoc), inv ∈ (runHandlers hb a st v hs).1 →
      inv.value = v := by
  intro hs
  induction hs with
  | nil => intro inv h; simp [runHandlers] at h
  | cons h0 rest ih =>
      intro inv h
      unfold runHandlers at h
      cases hr : hb h0 st v with
      | error e =>
          rw [hr] at h
          simp at h
          simp [h]
      | ok u =>
          rw [hr] at h
          simp at h
          rcases h with h | h
          · simp [h]
          · exact ih inv h

/-- Every invocation recorded by notifyActionHandlers carries the
payload computed for the action on the state it was called with. -/
theorem notify_value (hb : HB) (s : EngineState) (a : InputActionType)
    (st : InputState) :
    ∀ inv ∈ (notifyActionHandlers hb s a st).1, inv.value = valueFor s a := by
  intro inv h
  unfold notifyActionHandlers at h
  cases hg : aget s.actionHandlers a with
  | none => rw [hg] at h; simp at h
  | some hs =>
      rw [hg] at h
      exact runHandlers_value hb a st (valueFor s a) hs inv h

/-- With no stored value under MOVE_LEFT, the payload computed for it
is the number 0. -/
theorem valueFor_left (s : EngineState)
    (h : aget s.axisValues MOVE_LEFT = none) :
    valueFor s MOVE_LEFT = some (HValue.num 0) := by
  unfold valueFor getAxisValue agetD
  rw [if_pos (Or.inr (Or.inr (Or.inl rfl))), h]
  rfl

/-- With no stored value under MOVE_BACKWARD, the payload computed for
it is the number 0. -/
theorem valueFor_backward (s : EngineState)
    (h : aget s.axisValues MOVE_BACKWARD = none) :
    valueFor s MOVE_BACKWARD = some (HValue.num 0) := by
  unfold valueFor getAxisValue agetD
  rw [if_pos (Or.inr (Or.inl rfl)), h]
  rfl

/-- The invariant behind C10: the axis map has no entry under either
negative direction movement action. -/
def NegAxisAbsent (s : EngineState) : Prop :=
  aget s.axisValues MOVE_LEFT = none ∧ aget s.axisValues MOVE_BACKWARD = none

/-- The invariant transfers along equal axis maps. -/
theorem NegAxisAbsent_of_eq {s t : EngineState} (h : NegAxisAbsent s)
    (he : t.axisValues = s.axisValues) : NegAxisAbsent t := by
  constructor
  · show aget t.axisValues MOVE_LEFT = none
    rw [he]; exact h.1
  · show aget t.axisValues MOVE_BACKWARD = none
    rw [he]; exact h.2

/-- updateAxisValues writes only under MOVE_RIGHT and MOVE_FORWARD. -/
theorem updateAxis_other (s : EngineState) (a : InputActionType)
    (h1 : a ≠ MOVE_RIGHT) (h2 : a ≠ MOVE_FORWARD) :
    aget (updateAxisValues s).axisValues a = aget s.axisValues a := by
  show aget (aset (aset s.axisValues MOVE_RIGHT
    (axisFromKeys s MOVE_RIGHT MOVE_LEFT)) MOVE_FORWARD
    (axisFromKeys s MOVE_FORWARD MOVE_BACKWARD)) a = aget s.axisValues a
  rw [aget_aset_ne _ _ _ _ h2, aget_aset_ne _ _ _ _ h1]

/-- The invariant survives an axis recomputation. -/
theorem NegAxisAbsent_update {s : EngineState} (h : NegAxisAbsent s) :
    NegAxisAbsent (updateAxisValues s) :=
  ⟨(updateAxis_other s MOVE_LEFT (by decide) (by decide)).trans h.1,
    (updateAxis_other s MOVE_BACKWARD (by decide) (by decide)).trans h.2⟩

/-- Every engine event preserves the absence of axis entries under the
negative direction movement actions. -/
theorem stepE_NegAxisAbsent (hb : HB) (s : EngineState) (e : Event)
    (h : NegAxisAbsent s) : NegAxisAbsent (stepE hb s e) := by
  cases e with
  | keyDown k =>
      show NegAxisAbsent (handleKeyDownL hb s k).1
      unfold handleKeyDownL
      by_cases hg : agetD s.keyStates (strLower k) false = true
      · rw [if_pos hg]; exact h
      · rw [if_neg hg]
        split
        next e2 herr =>
          exact NegAxisAbsent_of_eq h (keyDispatch_axis hb s (strLower k) true)
        next herr =>
          exact NegAxisAbsent_update
            (NegAxisAbsent_of_eq h (keyDispatch_axis hb s (strLower k) true))
  | keyUp k =>
      show NegAxisAbsent (handleKeyUpL hb s k).1
      unfold handleKeyUpL
      split
      next e2 herr =>
        exact NegAxisAbsent_of_eq h (keyDispatch_axis hb s (strLower k) false)
      next herr =>
        exact NegAxisAbsent_update
          (NegAxisAbsent_of_eq h (keyDispatch_axis hb s (strLower k) false))
  | mouseDown n =>
      exact NegAxisAbsent_of_eq h
        (keyDispatch_axis hb s ("mouse" ++ toString n) true)
  | mouseUp n =>
      exact NegAxisAbsent_of_eq h
        (keyDispatch_axis hb s ("mouse" ++ toString n) false)
  | mouseMove =>
      constructor
      · show aget (aset s.axisValues CAMERA_LOOK 0) MOVE_LEFT = none
        rw [aget_aset_ne _ _ _ _ (by decide)]
        exact h.1
      · show aget (aset s.axisValues CAMERA_LOOK 0) MOVE_BACKWARD = none
        rw [aget_aset_ne _ _ _ _ (by decide)]
        exact h.2
  | blur =>
      show NegAxisAbsent (handleWindowBlurL hb s).1
      unfold handleWindowBlurL
      split
      next e2 herr =>
        exact NegAxisAbsent_of_eq h (blurGo_fields hb s.keyStates s).2.2.2
      next herr =>
        constructor
        · show aget ((blurGo hb s.keyStates s).1.axisValues.map
            (fun p => (p.1, (0 : Int)))) MOVE_LEFT = none
          rw [aget_zeroAll, (blurGo_fields hb s.keyStates s).2.2.2, h.1]
          rfl
        · show aget ((blurGo hb s.keyStates s).1.axisValues.map
            (fun p => (p.1, (0 : Int)))) MOVE_BACKWARD = none
          rw [aget_zeroAll, (blurGo_fields hb s.keyStates s).2.2.2, h.2]
          rfl
  | register a hid => exact NegAxisAbsent_of_eq h rfl
  | unregister a hid =>
      refine NegAxisAbsent_of_eq h ?_
      show (unregisterActionHandler s a hid).axisValues = s.axisValues
      unfold unregisterActionHandler
      cases aget s.actionHandlers a <;> rfl
  | enableCtx c => exact NegAxisAbsent_of_eq h rfl
  | disableCtx c => exact NegAxisAbsent_of_eq h rfl
  | rebind a p sec =>
      refine NegAxisAbsent_of_eq h ?_
      show (rebindAction s a p sec).1.axisValues = s.axisValues
      cases hget : aget s.bindings a with
      | none => rw [rebindAction_none s a p sec hget]
      | some b =>
          rw [rebindAction_some s a p sec b hget]
          by_cases hr : b.rebindable = true
          · rw [if_pos hr]
          · rw [if_neg hr]
  | reset => exact NegAxisAbsent_of_eq h rfl
  | save => exact NegAxisAbsent_of_eq h rfl
  | load => exact NegAxisAbsent_of_eq h (loadBindings_fields s).2.2.2.2.1

/-- Every reachable engine state satisfies the invariant. -/
theorem Reachable_NegAxisAbsent (hb : HB) (s : EngineState)
    (h : Reachable hb s) : NegAxisAbsent s := by
  induction h with
  | init st0 =>
      constructor
      · show aget (initialState st0).axisValues MOVE_LEFT = none
        rw [(initialState_fields st0).2.2.2.2]
        rfl
      · show aget (initialState st0).axisValues MOVE_BACKWARD = none
        rw [(initialState_fields st0).2.2.2.2]
        rfl
  | step hs e ih => exact stepE_NegAxisAbsent hb _ e ih

/-- In the dispatch loop, every invocation for a negative direction
movement action carries the payload 0, as long as the axis map has no
entry for either of them. -/
theorem picGo_neg_value (hb : HB) (key : String) (pressed : Bool) :
    ∀ (l : List (InputActionType × IInputBinding)) (s : EngineState),
      NegAxisAbsent s →
      ∀ inv ∈ (picGo hb key pressed l s).2.1,
        (inv.action = MOVE_LEFT ∨ inv.action = MOVE_BACKWARD) →
        inv.value = some (HValue.num 0) := by
  intro l
  induction l with
  | nil => intro s _ inv hinv; simp [picGo] at hinv
  | cons p rest ih =>
      obtain ⟨a0, b0⟩ := p
      intro s hax inv hinv hact
      rw [picGo_cons] at hinv
      by_cases hc : b0.context ∈ s.activeContexts
      · by_cases hk : b0.primary = key ∨ b0.secondary = some key
        · rw [if_pos hc, if_pos hk] at hinv
          have hax1 : NegAxisAbsent (dispatchCommit s a0 (newStateFor pressed)) :=
            NegAxisAbsent_of_eq hax rfl
          have hlog1 : ∀ inv2 ∈ (notifyActionHandlers hb
              (dispatchCommit s a0 (newStateFor pressed)) a0
              (newStateFor pressed)).1,
              (inv2.action = MOVE_LEFT ∨ inv2.action = MOVE_BACKWARD) →
              inv2.value = some (HValue.num 0) := by
            intro inv2 hmem hact2
            have ha := notify_action hb _ a0 _ inv2 hmem
            have hv := notify_value hb _ a0 _ inv2 hmem
            rcases hact2 with h2 | h2
            · have ha2 : a0 = MOVE_LEFT := ha.symm.trans h2
              rw [hv, ha2]
              exact valueFor_left _ hax1.1
            · have ha2 : a0 = MOVE_BACKWARD := ha.symm.trans h2
              rw [hv, ha2]
              exact valueFor_backward _ hax1.2
          split at hinv
          next e2 herr =>
            exact hlog1 inv hinv hact
          next herr =>
            rcases List.mem_append.mp hinv with hmm | hmm
            · exact hlog1 inv hmm hact
            · exact ih _ hax1 inv hmm hact
        · rw [if_pos hc, if_neg hk] at hinv
          exact ih s hax inv hinv hact
      · rw [if_neg hc] at hinv
        exact ih s hax inv hinv hact

/-- In the blur loop, every invocation for a negative direction
movement action carries the payload 0, under the invariant. -/
theorem blurGo_neg_value (hb : HB) :
    ∀ (l : List (String × Bool)) (s : EngineState),
      NegAxisAbsent s →
      ∀ inv ∈ (blurGo hb l s).2.1,
        (inv.action = MOVE_LEFT ∨ inv.action = MOVE_BACKWARD) →
        inv.value = some (HValue.num 0) := by
  intro l
  induction l with
  | nil => intro s _ inv hinv; simp [blurGo] at hinv
  | cons p rest ih =>
      obtain ⟨k0, p0⟩ := p
      intro s hax inv hinv hact
      rw [blurGo_cons] at hinv
      by_cases hp0 : p0 = true
      · rw [if_pos hp0] at hinv
        have hax1 : NegAxisAbsent
            ({ s with keyStates := aset s.keyStates k0 false } : EngineState) :=
          NegAxisAbsent_of_eq hax rfl
        split at hinv
        next e2 herr =>
          exact picGo_neg_value hb k0 false
            ({ s with keyStates := aset s.keyStates k0 false } : EngineState).bindings
            { s with keyStates := aset s.keyStates k0 false } hax1 inv hinv hact
        next herr =>
          rcases List.mem_append.mp hinv with hmm | hmm
          · exact picGo_neg_value hb k0 false
              ({ s with keyStates := aset s.keyStates k0 false } : EngineState).bindings
              { s with keyStates := aset s.keyStates k0 false } hax1 inv hmm hact
          · exact ih (blurStep hb s k0).1
              (NegAxisAbsent_of_eq hax (blurStep_fields hb s k0).2.2.2.2)
              inv hmm hact
      · rw [if_neg hp0] at hinv
        exact ih s hax inv hinv hact

/-- In any engine step from a state satisfying the invariant, every
invocation for a negative direction movement action carries the
payload 0. -/
theorem stepL_neg_value (hb : HB) (s : EngineState) (e : Event)
    (hax : NegAxisAbsent s) :
    ∀ inv ∈ (stepL hb s e).2.1,
      (inv.action = MOVE_LEFT ∨ inv.action = MOVE_BACKWARD) →
      inv.value = some (HValue.num 0) := by
  have hax1 : ∀ (key : String) (pressed : Bool), NegAxisAbsent
      ({ s with keyStates := aset s.keyStates key pressed } : EngineState) :=
    fun key pressed => NegAxisAbsent_of_eq hax rfl
  cases e with
  | keyDown k =>
      show ∀ inv ∈ (handleKeyDownL hb s k).2.1,
        (inv.action = MOVE_LEFT ∨ inv.action = MOVE_BACKWARD) →
        inv.value = some (HValue.num 0)
      unfold handleKeyDownL
      by_cases hg : agetD s.keyStates (strLower k) false = true
      · rw [if_pos hg]
        intro inv hinv
        simp at hinv
      · rw [if_neg hg]
        split
        next e2 herr =>
          intro inv hinv hact
          exact picGo_neg_value hb (strLower k) true
            ({ s with keyStates := aset s.keyStates (strLower k) true } : EngineState).bindings
            { s with keyStates := aset s.keyStates (strLower k) true }
            (hax1 (strLower k) true) inv hinv hact
        next herr =>
          intro inv hinv hact
          exact picGo_neg_value hb (strLower k) true
            ({ s with keyStates := aset s.keyStates (strLower k) true } : EngineState).bindings
            { s with keyStates := aset s.keyStates (strLower k) true }
            (hax1 (strLower k) true) inv hinv hact
  | keyUp k =>
      show ∀ inv ∈ (handleKeyUpL hb s k).2.1,
        (inv.action = MOVE_LEFT ∨ inv.action = MOVE_BACKWARD) →
        inv.value = some (HValue.num 0)
      unfold handleKeyUpL
      split
      next e2 herr =>
        intro inv hinv hact
        exact picGo_neg_value hb (strLower k) false
          ({ s with keyStates := aset s.keyStates (strLower k) false } : EngineState).bindings
          { s with keyStates := aset s.keyStates (strLower k) false }
          (hax1 (strLower k) false) inv hinv hact
      next herr =>
        intro inv hinv hact
        exact picGo_neg_value hb (strLower k) false
          ({ s with keyStates := aset s.keyStates (strLower k) false } : EngineState).bindings
          { s with keyStates := aset s.keyStates (strLower k) false }
          (hax1 (strLower k) false) inv hinv hact
  | mouseDown n =>
      intro inv hinv hact
      exact picGo_neg_value hb ("mouse" ++ toString n) true
        ({ s with keyStates := aset s.keyStates ("mouse" ++ toString n) true } : EngineState).bindings
        { s with keyStates := aset s.keyStates ("mouse" ++ toString n) true }
        (hax1 _ true) inv hinv hact
  | mouseUp n =>
      intro inv hinv hact
      exact picGo_neg_value hb ("mouse" ++ toString n) false
        ({ s with keyStates := aset s.keyStates ("mouse" ++ toString n) false } : EngineState).bindings
        { s with keyStates := aset s.keyStates ("mouse" ++ toString n) false }
        (hax1 _ false) inv hinv hact
  | mouseMove => intro inv hinv; simp [stepL] at hinv
  | blur =>
      show ∀ inv ∈ (handleWindowBlurL hb s).2.1,
        (inv.action = MOVE_LEFT ∨ inv.action = MOVE_BACKWARD) →
        inv.value = some (HValue.num 0)
      unfold handleWindowBlurL
      split
      next e2 herr =>
        intro inv hinv hact
        exact blurGo_neg_value hb s.keyStates s hax inv hinv hact
      next herr =>
        intro inv hinv hact
        exact blurGo_neg_value hb s.keyStates s hax inv hinv hact
  | register a hid => intro inv hinv; simp [stepL] at hinv
  | unregister a hid => intro inv hinv; simp [stepL] at hinv
  | enableCtx c => intro inv hinv; simp [stepL] at hinv
  | disableCtx c => intro inv hinv; simp [stepL] at hinv
  | rebind a p sec => intro inv hinv; simp [stepL] at hinv
  | reset => intro inv hinv; simp [stepL] at hinv
  | save => intro inv hinv; simp [stepL] at hinv
  | load => intro inv hinv; simp [stepL] at hinv

/-- Handler behaviour that always returns normally, used by witnesses. -/
def hbOk : HB := fun _ _ _ => Except.ok ()

/-- Handler behaviour where handler 0 throws and all others return
normally, used to exhibit the exception propagation of the dispatch. -/
def hbC1 : HB := fun i _ _ => if i = 0 then Except.error "boom" else Except.ok ()

/-- A freshly constructed engine with handlers 0 and 1 registered for
the jump action and handler 2 registered for the release grapple
action; both actions are bound to the space control in the default
table and gated by the player context, which construction enables. -/
def sC1 : EngineState :=
  registerActionHandler
    (registerActionHandler
      (registerActionHandler (initialState none) JUMP 0) JUMP 1)
    RELEASE_GRAPPLE 2

/-- C1, counterexample. The claim says an exception raised by one
handler is caught per invocation, the remaining handlers of the action
still run, and the other actions matched by the same raw transition
are still notified. In the source, notifyActionHandlers has no try or
catch: at this concrete state a space press dispatches to jump first,
handler 0 throws, and the recorded invocation log is exactly that one
call — handler 1 of jump (registered, as the third conjunct shows) is
never invoked, release grapple (also bound to space, with handler 2
registered, fourth conjunct) is never dispatched, and the exception
escapes processInputChange (second conjunct). -/
theorem C1_counterexample :
    (processInputChangeL hbC1 sC1 " " true).2.1 =
      [⟨JUMP, 0, InputState.PRESSED, none⟩] ∧
    (processInputChangeL hbC1 sC1 " " true).2.2 = some "boom" ∧
    agetD sC1.actionHandlers JUMP [] = [0, 1] ∧
    agetD sC1.actionHandlers RELEASE_GRAPPLE [] = [2] := by
  decide

/-- C1, amended. An exception raised by a handler during notification
of a raw transition is not caught by the engine: the dispatch stops at
the throwing invocation and returns the exception. Formally, for every
handler behaviour, state and raw transition, the invocation log and
reported exception of processInputChange satisfy stopsAtError: with no
exception every logged invocation returned normally, and with an
exception the log ends at the invocation that raised exactly it — no
later handler of that action and no handler of a later matched action
is invoked, and the exception propagates to the caller. -/
theorem C1_exception_propagates (hb : HB) (s : EngineState) (key : String)
    (pressed : Bool) :
    stopsAtError hb (processInputChangeL hb s key pressed).2.1
      (processInputChangeL hb s key pressed).2.2 :=
  picGo_stops hb key pressed s.bindings s

/-- C2. Starting from the default table (a freshly constructed engine
with empty storage), after any sequence of rebindAction calls,
saveBindings followed by resetBindings followed by loadBindings leaves
the binding table equal, action by action (hence in every field:
primary, secondary, context, description, rebindable), to the table at
the moment of saveBindings. The storage collaborator is modelled as
faithful, which is exactly the assumption of the claim. -/
theorem C2_save_reset_load_roundtrip
    (ops : List (InputActionType × String × Option String))
    (a : InputActionType) :
    aget (loadBindings (resetBindings (saveBindings
        (applyRebinds ops (initialState none))))).bindings a =
      aget (applyRebinds ops (initialState none)).bindings a := by
  have hwfd : WFB (initialState none).bindings := WFB_defaultAssoc
  have h := applyRebinds_WFB ops (initialState none) hwfd
  have hkeys : (applyRebinds ops (initialState none)).bindings.map Prod.fst =
      defaultAssoc.map Prod.fst := h.2
  have hr := roundtrip_bindings (applyRebinds ops (initialState none)).bindings
    h.1 hkeys a
  show aget (loadFold
    ((applyRebinds ops (initialState none)).bindings.map Prod.snd)
    defaultAssoc) a = aget (applyRebinds ops (initialState none)).bindings a
  exact hr

/-- C7. rebindAction on an action with no current binding, or whose
binding is not rebindable, returns false and leaves the whole engine
state — in particular the entire binding table — unchanged. The model
is a total function, so the call cannot raise. -/
theorem C7_rebind_refusal (s : EngineState) (a : InputActionType) (p : String)
    (sec : Option String) (h : canRebind s a = false) :
    rebindAction s a p sec = (s, false) := by
  unfold canRebind at h
  cases hget : aget s.bindings a with
  | none => exact rebindAction_none s a p sec hget
  | some b =>
      rw [hget] at h
      have h2 : b.rebindable = false := h
      rw [rebindAction_some s a p sec b hget, if_neg]
      simp [h2]

/-- C7, witness: the menu toggle action ships non rebindable, and the
call refuses and changes nothing. -/
theorem C7_witness :
    canRebind (initialState none) MENU_TOGGLE = false ∧
    rebindAction (initialState none) MENU_TOGGLE "x" none =
      (initialState none, false) :=
  ⟨by decide,
    C7_rebind_refusal (initialState none) MENU_TOGGLE "x" none (by decide)⟩

/-- C8, counterexample. The claim says a successful call sets the
secondary control to the lower-cased token whenever a secondary
argument is given, clearing it only when the argument is omitted. The
source checks the argument for truthiness, and the empty string is
falsy in JavaScript: rebinding jump with the given secondary token ""
succeeds (first conjunct) yet stores the binding with no secondary at
all (second conjunct) instead of the lower-cased given token "". -/
theorem C8_counterexample :
    (rebindAction (initialState none) JUMP "K" (some "")).2 = true ∧
    aget (rebindAction (initialState none) JUMP "K" (some "")).1.bindings JUMP =
      some ⟨JUMP, "k", none, InputContext.PLAYER, "Jump", true⟩ := by
  decide

/-- C8, amended. For every action with an existing rebindable binding,
rebindAction returns true, sets the primary control to the lower-cased
token, sets the secondary control to the lower-cased token when a
non-empty secondary is given and clears it to absent when the argument
is omitted or empty (rebindSecondary), preserves the binding context,
description and rebindable flag (the record update keeps every other
field of b), leaves every other action entry unchanged, and leaves
every other engine field unchanged. -/
theorem C8_rebind_success (s : EngineState) (a : InputActionType) (p : String)
    (sec : Option String) (b : IInputBinding)
    (hget : aget s.bindings a = some b) (hr : b.rebindable = true) :
    (rebindAction s a p sec).2 = true ∧
    aget (rebindAction s a p sec).1.bindings a =
      some { b with primary := (strLower p), secondary := rebindSecondary sec } ∧
    (∀ a2, a2 ≠ a →
      aget (rebindAction s a p sec).1.bindings a2 = aget s.bindings a2) ∧
    (rebindAction s a p sec).1.actionHandlers = s.actionHandlers ∧
    (rebindAction s a p sec).1.activeContexts = s.activeContexts ∧
    (rebindAction s a p sec).1.keyStates = s.keyStates ∧
    (rebindAction s a p sec).1.actionStates = s.actionStates ∧
    (rebindAction s a p sec).1.axisValues = s.axisValues := by
  rw [rebindAction_some s a p sec b hget, if_pos hr]
  refine ⟨rfl, aget_aset_self _ _ _, ?_, rfl, rfl, rfl, rfl, rfl⟩
  intro a2 hne
  exact aget_aset_ne _ _ _ _ hne

/-- The shipped default binding of the jump action. -/
def bJump : IInputBinding := ⟨JUMP, " ", none, InputContext.PLAYER, "Jump", true⟩

/-- C8, witness: rebinding jump to primary K with secondary J succeeds
and stores the lower-cased pair. -/
theorem C8_witness :
    aget (initialState none).bindings JUMP = some bJump ∧
    bJump.rebindable = true ∧
    (rebindAction (initialState none) JUMP "K" (some "J")).2 = true ∧
    aget (rebindAction (initialState none) JUMP "K" (some "J")).1.bindings JUMP =
      some { bJump with primary := "k", secondary := some "j" } := by
  have h := C8_rebind_success (initialState none) JUMP "K" (some "J") bJump
    (by decide) (by decide)
  refine ⟨by decide, by decide, h.1, ?_⟩
  rw [h.2.1]
  decide

/-- C9, counterexample. The claim says the Context Gate is empty
immediately after construction. The constructor itself enables the
player context, so the gate of a freshly constructed engine is the one
element set holding the player context, not the empty set, whatever
the storage held. -/
theorem C9_counterexample :
    (initialState none).activeContexts = [InputContext.PLAYER] ∧
    isContextEnabled (initialState none) InputContext.PLAYER = true ∧
    (initialState none).activeContexts ≠ [] := by
  decide

/-- C9, amended. Immediately after construction the Context Gate
contains exactly the player context, which the constructor itself
enables; thereafter it changes only through the explicit
enableContext and disableContext calls — every other engine entry
point (raw events, focus loss, handler registration and
deregistration, rebinding, reset, save and load) returns the active
context set unchanged. -/
theorem C9_context_gate (st0 : Option (List IInputBinding)) :
    (initialState st0).activeContexts = [InputContext.PLAYER] ∧
    (∀ (hb : HB) (s : EngineState) (rawKey : String),
      (handleKeyDownL hb s rawKey).1.activeContexts = s.activeContexts) ∧
    (∀ (hb : HB) (s : EngineState) (rawKey : String),
      (handleKeyUpL hb s rawKey).1.activeContexts = s.activeContexts) ∧
    (∀ (hb : HB) (s : EngineState) (n : Nat),
      (handleMouseDownL hb s n).1.activeContexts = s.activeContexts) ∧
    (∀ (hb : HB) (s : EngineState) (n : Nat),
      (handleMouseUpL hb s n).1.activeContexts = s.activeContexts) ∧
    (∀ s : EngineState, (handleMouseMove s).activeContexts = s.activeContexts) ∧
    (∀ (hb : HB) (s : EngineState),
      (handleWindowBlurL hb s).1.activeContexts = s.activeContexts) ∧
    (∀ (s : EngineState) (a : InputActionType) (hid : Nat),
      (registerActionHandler s a hid).activeContexts = s.activeContexts) ∧
    (∀ (s : EngineState) (a : InputActionType) (hid : Nat),
      (unregisterActionHandler s a hid).activeContexts = s.activeContexts) ∧
    (∀ (s : EngineState) (a : InputActionType) (p : String) (sec : Option String),
      (rebindAction s a p sec).1.activeContexts = s.activeContexts) ∧
    (∀ s : EngineState, (resetBindings s).activeContexts = s.activeContexts) ∧
    (∀ s : EngineState, (saveBindings s).activeContexts = s.activeContexts) ∧
    (∀ s : EngineState, (loadBindings s).activeContexts = s.activeContexts) := by
  refine ⟨(initialState_fields st0).2.1, ?_, ?_, ?_, ?_, ?_, ?_, ?_, ?_, ?_,
    ?_, ?_, ?_⟩
  · intro hb s rawKey
    unfold handleKeyDownL
    by_cases hg : agetD s.keyStates (strLower rawKey) false = true
    · rw [if_pos hg]
    · rw [if_neg hg]
      split
      next e2 herr => exact keyDispatch_ctx hb s (strLower rawKey) true
      next herr => exact keyDispatch_ctx hb s (strLower rawKey) true
  · intro hb s rawKey
    unfold handleKeyUpL
    split
    next e2 herr => exact keyDispatch_ctx hb s (strLower rawKey) false
    next herr => exact keyDispatch_ctx hb s (strLower rawKey) false
  · intro hb s n
    exact keyDispatch_ctx hb s ("mouse" ++ toString n) true
  · intro hb s n
    exact keyDispatch_ctx hb s ("mouse" ++ toString n) false
  · intro s
    rfl
  · intro hb s
    unfold handleWindowBlurL
    split
    next e2 herr => exact (blurGo_fields hb s.keyStates s).2.2.1
    next herr => exact (blurGo_fields hb s.keyStates s).2.2.1
  · intro s a hid
    rfl
  · intro s a hid
    unfold unregisterActionHandler
    cases aget s.actionHandlers a <;> rfl
  · intro s a p sec
    cases hget : aget s.bindings a with
    | none => rw [rebindAction_none s a p sec hget]
    | some b =>
        rw [rebindAction_some s a p sec b hget]
        by_cases hr : b.rebindable = true
        · rw [if_pos hr]
        · rw [if_neg hr]
  · intro s
    rfl
  · intro s
    rfl
  · intro s
    exact (loadBindings_fields s).2.1

/-- C3. Let b be the current binding of the move forward action, in a
table with pairwise distinct keys, and let the raw key lower-case to
one of the bound controls of b. Then, with handlers that return
normally: (1) while the owning context of b is not enabled, a raw
press of that key leaves the move forward action state unchanged and
invokes no handler for move forward; (2) after enabling the owning
context of b, a raw press of the same key (when the key is not
already recorded pressed, as for an organic press) sets the move
forward state to pressed and invokes every registered move forward
handler with the pressed state. -/
theorem C3_context_gating (hb : HB) (s : EngineState) (b : IInputBinding)
    (rawKey : String) (hok : HOk hb)
    (hnd : (s.bindings.map Prod.fst).Nodup)
    (hget : aget s.bindings MOVE_FORWARD = some b)
    (hkey : b.primary = strLower rawKey ∨ b.secondary = some (strLower rawKey)) :
    (b.context ∉ s.activeContexts →
      aget (handleKeyDownL hb s rawKey).1.actionStates MOVE_FORWARD =
        aget s.actionStates MOVE_FORWARD ∧
      ∀ inv ∈ (handleKeyDownL hb s rawKey).2.1, inv.action ≠ MOVE_FORWARD) ∧
    (aget s.keyStates (strLower rawKey) ≠ some true →
      aget (handleKeyDownL hb (enableContext s b.context) rawKey).1.actionStates
        MOVE_FORWARD = some InputState.PRESSED ∧
      ∀ hid ∈ agetD s.actionHandlers MOVE_FORWARD [],
        ∃ v, (⟨MOVE_FORWARD, hid, InputState.PRESSED, v⟩ : Invoc) ∈
          (handleKeyDownL hb (enableContext s b.context) rawKey).2.1) := by
  constructor
  · intro hdis
    have hskip : ∀ b2, (MOVE_FORWARD, b2) ∈ s.bindings →
        b2.context ∉ s.activeContexts ∨
          (b2.primary ≠ strLower rawKey ∧
            b2.secondary ≠ some (strLower rawKey)) := by
      intro b2 hmem
      have h2 := aget_of_mem_nodup hnd hmem
      rw [hget] at h2
      injection h2 with h3
      rw [← h3]
      exact Or.inl hdis
    have hmiss := picGo_miss hb (strLower rawKey) true s.bindings
      { s with keyStates := aset s.keyStates (strLower rawKey) true }
      MOVE_FORWARD hskip
    unfold handleKeyDownL
    by_cases hg : agetD s.keyStates (strLower rawKey) false = true
    · rw [if_pos hg]
      exact ⟨rfl, by intro inv hinv; simp at hinv⟩
    · rw [if_neg hg]
      split
      next e2 herr => exact ⟨hmiss.1, fun inv hinv => hmiss.2 inv hinv⟩
      next herr => exact ⟨hmiss.1, fun inv hinv => hmiss.2 inv hinv⟩
  · intro hnp
    have hgf : agetD (enableContext s b.context).keyStates (strLower rawKey)
        false = false := by
      show agetD s.keyStates (strLower rawKey) false = false
      unfold agetD
      cases hv : aget s.keyStates (strLower rawKey) with
      | none => rfl
      | some v =>
          cases v with
          | true => exact absurd hv hnp
          | false => rfl
    have hg2 : ¬ agetD (enableContext s b.context).keyStates (strLower rawKey)
        false = true := by
      rw [hgf]
      exact Bool.false_ne_true
    have herr2 : (keyDispatch hb (enableContext s b.context) (strLower rawKey)
        true).2.2 = none := picGo_err_none hb hok (strLower rawKey) true _ _
    have hhit := picGo_hit hb (strLower rawKey) true hok
      (enableContext s b.context).bindings
      { (enableContext s b.context) with
          keyStates := (aset (enableContext s b.context).keyStates
            (strLower rawKey) true) }
      MOVE_FORWARD b hnd (mem_of_aget hget)
      (mem_sadd_self s.activeContexts b.context) hkey
    unfold handleKeyDownL
    rw [if_neg hg2, herr2]
    constructor
    · exact hhit.1
    · intro hid hh
      obtain ⟨v, hv⟩ := hhit.2 hid hh
      exact ⟨v, hv⟩

/-- A freshly constructed engine with the player context disabled
again and handler 5 registered for move forward. -/
def sC3 : EngineState :=
  registerActionHandler (disableContext (initialState none) InputContext.PLAYER)
    MOVE_FORWARD 5

/-- The shipped default binding of the move forward action. -/
def bMoveForward : IInputBinding :=
  ⟨MOVE_FORWARD, "w", some "arrowup", InputContext.PLAYER, "Move Forward", true⟩

/-- C3, witness at the concrete scenario of the claim: pressing W with
the player context disabled changes nothing for move forward;
re-enabling the context and pressing again sets it pressed and
notifies handler 5. -/
theorem C3_witness :
    HOk hbOk ∧
    (aget (handleKeyDownL hbOk sC3 "W").1.actionStates MOVE_FORWARD =
        aget sC3.actionStates MOVE_FORWARD ∧
      ∀ inv ∈ (handleKeyDownL hbOk sC3 "W").2.1, inv.action ≠ MOVE_FORWARD) ∧
    (aget (handleKeyDownL hbOk (enableContext sC3 bMoveForward.context)
        "W").1.actionStates MOVE_FORWARD = some InputState.PRESSED ∧
      ∀ hid ∈ agetD sC3.actionHandlers MOVE_FORWARD [],
        ∃ v, (⟨MOVE_FORWARD, hid, InputState.PRESSED, v⟩ : Invoc) ∈
          (handleKeyDownL hbOk (enableContext sC3 bMoveForward.context)
            "W").2.1) := by
  have h := C3_context_gating hbOk sC3 bMoveForward "W" (fun i st v => rfl)
    (by decide) (by decide) (Or.inl (by decide))
  exact ⟨fun i st v => rfl, h.1 (by decide), h.2 (by decide)⟩

/-- C5. A single raw transition of a control notifies every matching
action, not only the first: in a binding table with pairwise distinct
keys, every action whose binding has the transitioned control as
primary or secondary and whose owning context is enabled has its
discrete state set to the new state and every one of its registered
handlers invoked with that state, provided no handler throws. -/
theorem C5_shared_control_fanout (hb : HB) (s : EngineState) (key : String)
    (pressed : Bool) (hok : HOk hb)
    (hnd : (s.bindings.map Prod.fst).Nodup) :
    ∀ (a : InputActionType) (b : IInputBinding),
      aget s.bindings a = some b →
      b.context ∈ s.activeContexts →
      (b.primary = key ∨ b.secondary = some key) →
      aget (processInputChangeL hb s key pressed).1.actionStates a =
        some (newStateFor pressed) ∧
      ∀ hid ∈ agetD s.actionHandlers a [],
        ∃ v, (⟨a, hid, newStateFor pressed, v⟩ : Invoc) ∈
          (processInputChangeL hb s key pressed).2.1 := by
  intro a b hget hctx hkey
  exact picGo_hit hb key pressed hok s.bindings s a b hnd
    (mem_of_aget hget) hctx hkey

/-- A freshly constructed engine with handlers 10, 11 and 12 on the
three default actions bound to mouse1. -/
def sC5 : EngineState :=
  registerActionHandler
    (registerActionHandler
      (registerActionHandler (initialState none) ATTACK_SECONDARY 10) AIM 11)
    GRAPPLE 12

/-- C5, witness at the concrete scenario of the claim: one mouse1
press transition notifies attack secondary, aim and grapple — all
three handler sets, not just the first match. -/
theorem C5_witness :
    HOk hbOk ∧
    (aget (processInputChangeL hbOk sC5 "mouse1" true).1.actionStates
        ATTACK_SECONDARY = some (newStateFor true) ∧
      ∃ v, (⟨ATTACK_SECONDARY, 10, newStateFor true, v⟩ : Invoc) ∈
        (processInputChangeL hbOk sC5 "mouse1" true).2.1) ∧
    (aget (processInputChangeL hbOk sC5 "mouse1" true).1.actionStates AIM =
        some (newStateFor true) ∧
      ∃ v, (⟨AIM, 11, newStateFor true, v⟩ : Invoc) ∈
        (processInputChangeL hbOk sC5 "mouse1" true).2.1) ∧
    (aget (processInputChangeL hbOk sC5 "mouse1" true).1.actionStates GRAPPLE =
        some (newStateFor true) ∧
      ∃ v, (⟨GRAPPLE, 12, newStateFor true, v⟩ : Invoc) ∈
        (processInputChangeL hbOk sC5 "mouse1" true).2.1) := by
  have hA := C5_shared_control_fanout hbOk sC5 "mouse1" true (fun i st v => rfl)
    (by decide) ATTACK_SECONDARY
    ⟨ATTACK_SECONDARY, "mouse1", none, InputContext.PLAYER,
      "Attack (Secondary)", true⟩ (by decide) (by decide) (Or.inl (by decide))
  have hB := C5_shared_control_fanout hbOk sC5 "mouse1" true (fun i st v => rfl)
    (by decide) AIM
    ⟨AIM, "mouse1", none, InputContext.PLAYER, "Aim", true⟩
    (by decide) (by decide) (Or.inl (by decide))
  have hC := C5_shared_control_fanout hbOk sC5 "mouse1" true (fun i st v => rfl)
    (by decide) GRAPPLE
    ⟨GRAPPLE, "mouse1", none, InputContext.PLAYER, "Grapple", true⟩
    (by decide) (by decide) (Or.inl (by decide))
  exact ⟨fun i st v => rfl,
    ⟨hA.1, hA.2 10 (by decide)⟩,
    ⟨hB.1, hB.2 11 (by decide)⟩,
    ⟨hC.1, hC.2 12 (by decide)⟩⟩

/-- C6. For every engine state (well formed maps: pairwise distinct
tracked controls and binding keys), under handlers that return
normally, the focus loss handler (a) records every pressed control as
released, (b) for every action bound through an enabled context to
some pressed control, commits the released state and invokes every
registered handler of that action with it, and (c) leaves every
tracked axis entry holding 0. -/
theorem C6_focus_loss (hb : HB) (s : EngineState) (hok : HOk hb)
    (hndk : (s.keyStates.map Prod.fst).Nodup)
    (hndb : (s.bindings.map Prod.fst).Nodup) :
    (∀ k, aget s.keyStates k = some true →
      aget (handleWindowBlurL hb s).1.keyStates k = some false) ∧
    (∀ (a : InputActionType) (bb : IInputBinding) (k : String),
      aget s.bindings a = some bb →
      bb.context ∈ s.activeContexts →
      aget s.keyStates k = some true →
      (bb.primary = k ∨ bb.secondary = some k) →
      aget (handleWindowBlurL hb s).1.actionStates a =
        some InputState.RELEASED ∧
      ∀ hid ∈ agetD s.actionHandlers a [],
        ∃ v, (⟨a, hid, InputState.RELEASED, v⟩ : Invoc) ∈
          (handleWindowBlurL hb s).2.1) ∧
    (∀ (a : InputActionType) (v : Int),
      aget (handleWindowBlurL hb s).1.axisValues a = some v → v = 0) := by
  have herr := blurGo_err_none hb hok s.keyStates s
  unfold handleWindowBlurL
  rw [herr]
  refine ⟨?_, ?_, ?_⟩
  · intro k hk
    show aget (blurGo hb s.keyStates s).1.keyStates k = some false
    exact blurGo_sets_false hb hok s.keyStates s hndk k (mem_of_aget hk)
  · intro a bb k hget hctx hk hkey
    have h := blurGo_hits hb hok s.keyStates s k a bb hndb (mem_of_aget hk)
      hget hctx hkey
    exact ⟨h.1, fun hid hh => h.2 hid hh⟩
  · intro a v hv
    have hv2 : aget ((blurGo hb s.keyStates s).1.axisValues.map
        (fun p => (p.1, (0 : Int)))) a = some v := hv
    rw [aget_zeroAll] at hv2
    cases haa : aget (blurGo hb s.keyStates s).1.axisValues a with
    | none => rw [haa] at hv2; simp at hv2
    | some w =>
        rw [haa] at hv2
        simp at hv2
        omega

/-- An engine state with three controls pressed, the player context
enabled, handlers on move forward and jump, and stale axis entries. -/
def sC6 : EngineState :=
  { actionHandlers := [(MOVE_FORWARD, [3]), (JUMP, [4])],
    bindings := defaultAssoc,
    activeContexts := [InputContext.PLAYER],
    keyStates := [("w", true), (" ", true), ("mouse1", true)],
    actionStates := [(MOVE_FORWARD, InputState.PRESSED),
      (JUMP, InputState.PRESSED)],
    axisValues := [(MOVE_RIGHT, 1), (MOVE_FORWARD, 1)],
    storage := none }

/-- C6, witness at the simulated focus loss scenario of the claim:
with w, space and mouse1 pressed, the blur handler records w as
released and fires a released transition for move forward, whose
handler 3 is invoked with the released state. -/
theorem C6_witness :
    HOk hbOk ∧
    aget (handleWindowBlurL hbOk sC6).1.keyStates "w" = some false ∧
    (aget (handleWindowBlurL hbOk sC6).1.actionStates MOVE_FORWARD =
        some InputState.RELEASED ∧
      ∀ hid ∈ agetD sC6.actionHandlers MOVE_FORWARD [],
        ∃ v, (⟨MOVE_FORWARD, hid, InputState.RELEASED, v⟩ : Invoc) ∈
          (handleWindowBlurL hbOk sC6).2.1) := by
  have h := C6_focus_loss hbOk sC6 (fun i st v => rfl) (by decide) (by decide)
  exact ⟨fun i st v => rfl, h.1 "w" (by decide),
    h.2.1 MOVE_FORWARD bMoveForward "w" (by decide) (by decide) (by decide)
      (Or.inl (by decide))⟩

/-- C4. For every keyboard interleaving from construction, and for
both opposing movement pairs: the stored axis value equals the axis
the claim describes on the same state — +1 exactly when only the
positive side has a pressed bound control, -1 exactly when only the
negative side has, 0 when both or neither have — and is therefore
always one of -1, 0 and 1; pressing both then releasing both passes
through states where both or neither are pressed, where this value is
exactly 0, never a stale plus or minus 1. -/
theorem C4_opposing_pair_axis (hb : HB) (st0 : Option (List IInputBinding))
    (evs : List (Bool × String)) (hok : HOk hb) :
    getAxisValue (applyKeyEvents hb evs (initialState st0)) MOVE_RIGHT =
      specAxis (applyKeyEvents hb evs (initialState st0)) MOVE_RIGHT MOVE_LEFT ∧
    getAxisValue (applyKeyEvents hb evs (initialState st0)) MOVE_FORWARD =
      specAxis (applyKeyEvents hb evs (initialState st0)) MOVE_FORWARD
        MOVE_BACKWARD ∧
    (getAxisValue (applyKeyEvents hb evs (initialState st0)) MOVE_RIGHT = -1 ∨
      getAxisValue (applyKeyEvents hb evs (initialState st0)) MOVE_RIGHT = 0 ∨
      getAxisValue (applyKeyEvents hb evs (initialState st0)) MOVE_RIGHT = 1) ∧
    (getAxisValue (applyKeyEvents hb evs (initialState st0)) MOVE_FORWARD = -1 ∨
      getAxisValue (applyKeyEvents hb evs (initialState st0)) MOVE_FORWARD = 0 ∨
      getAxisValue (applyKeyEvents hb evs (initialState st0)) MOVE_FORWARD = 1)
    := by
  have h := applyKeyEvents_axisOK hb hok evs (initialState st0)
    (axisOK_initial st0)
  refine ⟨h.1, h.2, ?_, ?_⟩
  · rw [h.1]
    unfold specAxis
    split_ifs <;> norm_num
  · rw [h.2]
    unfold specAxis
    split_ifs <;> norm_num

/-- C4, witness: pressing d then a, then releasing d then a, ends with
the horizontal axis agreeing with the spec axis (both 0). -/
theorem C4_witness :
    HOk hbOk ∧
    getAxisValue (applyKeyEvents hbOk
        [(true, "d"), (true, "a"), (false, "d"), (false, "a")]
        (initialState none)) MOVE_RIGHT =
      specAxis (applyKeyEvents hbOk
        [(true, "d"), (true, "a"), (false, "d"), (false, "a")]
        (initialState none)) MOVE_RIGHT MOVE_LEFT :=
  ⟨fun _ _ _ => rfl,
    (C4_opposing_pair_axis hbOk none
      [(true, "d"), (true, "a"), (false, "d"), (false, "a")]
      (fun _ _ _ => rfl)).1⟩

/-- C10. In every reachable engine state, getAxisValue returns 0 for
move left and move backward — the horizontal axis is stored only under
move right and the vertical axis only under move forward — and in any
next engine event every handler invocation for either negative
direction movement action carries the numeric payload 0, whatever keys
are pressed. -/
theorem C10_negative_movement_axes (hb : HB) (s : EngineState)
    (h : Reachable hb s) :
    getAxisValue s MOVE_LEFT = 0 ∧
    getAxisValue s MOVE_BACKWARD = 0 ∧
    ∀ (e : Event), ∀ inv ∈ (stepL hb s e).2.1,
      (inv.action = MOVE_LEFT ∨ inv.action = MOVE_BACKWARD) →
      inv.value = some (HValue.num 0) := by
  have hax := Reachable_NegAxisAbsent hb s h
  refine ⟨?_, ?_, fun e => stepL_neg_value hb s e hax⟩
  · unfold getAxisValue agetD
    rw [hax.1]
    rfl
  · unfold getAxisValue agetD
    rw [hax.2]
    rfl

/-- C10, witness: the freshly constructed engine is reachable and
reports 0 on both negative direction movement axes. -/
theorem C10_witness :
    Reachable hbOk (initialState none) ∧
    getAxisValue (initialState none) MOVE_LEFT = 0 ∧
    getAxisValue (initialState none) MOVE_BACKWARD = 0 := by
  have h := C10_negative_movement_axes hbOk (initialState none)
    (Reachable.init none)
  exact ⟨Reachable.init none, h.1, h.2.1⟩
